import Mathlib

/-!
# Verification of the event-bus core of `ms3dm_python_lab`

Shallow embedding of `lessons/lab_0001_event_bus/event_bus/sync_bus.py`
(`EventBus`) and `lessons/lab_0001_event_bus/event_bus/async_bus.py`
(`AsyncEventBus`), together with proofs about the properties the design
document states for them.

Modelling conventions:

* A Python `dict` is modelled as an insertion-ordered association list.
  Assignment `d[k] = v` updates the first binding of `k` in place when `k` is
  present and appends a new binding otherwise (`alistSet`); `del d[k]` drops
  the first binding (`alistRemoveKey`); lookups read the first binding.
* `str(uuid4())` is modelled by `freshId` applied to a per-bus counter
  (`BusState.nextId`): an opaque, non-empty token that is never reused, which
  is the property the code relies on from UUIDs.
* Python `assert` failures, exceptions raised by handlers, and `RuntimeError`
  raised by dict iterators are the three kinds of exceptions the bus code can
  surface; they are kept apart by the `PyError` type.
* Handlers are opaque Python callables; each claim section below fixes a
  handler model rich enough for the behaviours that claim is about.
-/

/-- The exceptions observable from the event-bus code: `AssertionError` from
the validation `assert` statements, an arbitrary exception raised by a
subscriber's handler, and `RuntimeError` from CPython's dict iterator. -/
inductive PyError where
  | assertionError (msg : String)
  | handlerError (msg : String)
  | runtimeError (msg : String)
deriving DecidableEq

/-- First binding of key `k` in an insertion-ordered dict. -/
def alistGet {α : Type} : List (String × α) → String → Option α
  | [], _ => none
  | (k', v) :: rest, k => if k' = k then some v else alistGet rest k

/-- `d.get(k, dflt)`. -/
def alistGetD {α : Type} (d : List (String × α)) (k : String) (dflt : α) : α :=
  (alistGet d k).getD dflt

/-- `d[k] = v`: update the first binding of `k` in place, or append a new
binding at the end (CPython dicts keep insertion order). -/
def alistSet {α : Type} : List (String × α) → String → α → List (String × α)
  | [], k, v => [(k, v)]
  | (k', v') :: rest, k, v =>
    if k' = k then (k, v) :: rest else (k', v') :: alistSet rest k v

/-- `del d[k]` (for a key known to be present: drops the first binding). -/
def alistRemoveKey {α : Type} : List (String × α) → String → List (String × α)
  | [], _ => []
  | (k', v') :: rest, k => if k' = k then rest else (k', v') :: alistRemoveKey rest k

/-- Model of `str(uuid4())`: the `n`-th identifier generated by a bus.  The
code relies on these tokens being non-empty strings that are never repeated;
`freshId` realises both properties (`freshId_ne_empty`, `freshId_injective`). -/
def freshId (n : Nat) : String :=
  String.mk (List.replicate (n + 1) 's')

theorem freshId_length (n : Nat) : (freshId n).length = n + 1 := by
  simp [freshId, String.length]

theorem freshId_ne_empty (n : Nat) : freshId n ≠ "" := by
  intro h
  have := freshId_length n
  rw [h] at this
  simp [String.length] at this

theorem freshId_injective : Function.Injective freshId := by
  intro m n h
  have hm := freshId_length m
  rw [h, freshId_length] at hm
  omega

/-- The state shared by `EventBus` (sync_bus.py) and `AsyncEventBus`
(async_bus.py): the field `self._subscribers : dict[str, dict[str, Callable]]`
mapping event names to the ordered subscriptions for that event, plus the
counter realising the fresh-identifier supply.  `H` is the type modelling the
handlers. -/
structure BusState (H : Type) where
  subscribers : List (String × List (String × H))
  nextId : Nat
deriving DecidableEq

/-- `EventBus()` / `AsyncEventBus()`: a bus with no subscriptions. -/
def BusState.empty (H : Type) : BusState H := ⟨[], 0⟩

namespace EventBus

/-- The handler argument passed to `subscribe`: either a Python callable
(modelled by `H`) or some non-callable value, which `subscribe` rejects. -/
inductive HandlerArg (H : Type) where
  | callable (h : H)
  | notCallable
deriving DecidableEq

/-- `EventBus.subscribe` (sync_bus.py lines 43-86); the body of
`AsyncEventBus.subscribe` (async_bus.py lines 42-87) is textually identical.
Asserts the event name non-empty and the handler callable, generates a fresh
identifier, creates the event's inner dict if absent and stores the handler
under the new identifier. -/
def subscribe {H : Type} (b : BusState H) (event : String) (arg : HandlerArg H) :
    Except PyError (String × BusState H) :=
  if event = "" then .error (.assertionError "Event name cannot be empty")
  else
    match arg with
    | .notCallable => .error (.assertionError "Handler must be callable")
    | .callable handler =>
      let sub_id := freshId b.nextId
      let bucket := alistGetD b.subscribers event []
      .ok (sub_id, ⟨alistSet b.subscribers event (alistSet bucket sub_id handler),
                    b.nextId + 1⟩)

/-- The search loop of `unsubscribe`: scan the buckets in insertion order for
the first one containing the identifier, delete the entry, and delete the
bucket itself when it becomes empty. -/
def removeFirst {H : Type} :
    List (String × List (String × H)) → String → Bool × List (String × List (String × H))
  | [], _ => (false, [])
  | (e, hs) :: rest, sid =>
    if (alistGet hs sid).isSome then
      let hs' := alistRemoveKey hs sid
      if hs'.isEmpty then (true, rest) else (true, (e, hs') :: rest)
    else
      let (found, rest') := removeFirst rest sid
      (found, (e, hs) :: rest')

/-- `EventBus.unsubscribe` (sync_bus.py lines 88-134); the body of
`AsyncEventBus.unsubscribe` (async_bus.py lines 89-131) is identical apart
from a redundant final assertion.  Asserts the identifier non-empty, then
removes the first matching subscription, returning whether one was found. -/
def unsubscribe {H : Type} (b : BusState H) (subscription_id : String) :
    Except PyError (Bool × BusState H) :=
  if subscription_id = "" then .error (.assertionError "Subscription ID cannot be empty")
  else
    let (found, subs) := removeFirst b.subscribers subscription_id
    .ok (found, ⟨subs, b.nextId⟩)

/-- `EventBus.clear` (sync_bus.py lines 180-195) = `AsyncEventBus.clear`
(async_bus.py lines 176-193): `self._subscribers.clear()`. -/
def clear {H : Type} (b : BusState H) : BusState H := ⟨[], b.nextId⟩

/-- `EventBus.count_subscribers` (sync_bus.py lines 197-233) =
`AsyncEventBus.count_subscribers` (async_bus.py lines 195-233): with an event
name, the size of that event's bucket (0 if absent); without one, the sum of
all bucket sizes. -/
def count_subscribers {H : Type} (b : BusState H) (event : Option String) : Nat :=
  match event with
  | some e => (alistGetD b.subscribers e []).length
  | none => (b.subscribers.map (fun p => p.2.length)).sum

/-- All subscription identifiers stored in a registry mapping, in bucket
order. -/
def idsOf {H : Type} (subs : List (String × List (String × H))) : List String :=
  (subs.map (fun p => p.2.map Prod.fst)).flatten

/-- All subscription identifiers stored in the bus, in bucket order. -/
def busIds {H : Type} (b : BusState H) : List String :=
  idsOf b.subscribers

/-- The handler stored under a subscription identifier, if any (first match in
bucket order, like the `unsubscribe` scan). -/
def subLookupAux {H : Type} : List (String × List (String × H)) → String → Option H
  | [], _ => none
  | (_, hs) :: rest, sid =>
    match alistGet hs sid with
    | some h => some h
    | none => subLookupAux rest sid

def subLookup {H : Type} (b : BusState H) (sid : String) : Option H :=
  subLookupAux b.subscribers sid

/-- Well-formedness that every bus reachable from `BusState.empty` enjoys:
identifiers are globally distinct and all were produced by the fresh-id
supply (hence are non-empty and differ from every not-yet-issued id). -/
def WF {H : Type} (b : BusState H) : Prop :=
  (busIds b).Nodup ∧ ∀ id ∈ busIds b, ∃ k, k < b.nextId ∧ freshId k = id

/-- No-dangling-empty-entries invariant of the mapping (claim C7): every
bucket stored in the registry is non-empty. -/
def Tidy {H : Type} (b : BusState H) : Prop :=
  ∀ p ∈ b.subscribers, p.2 ≠ []

end EventBus

/-! ## The synchronous dispatcher

`EventBus.publish` (sync_bus.py lines 136-178):

    handlers = self._subscribers.get(event, {})
    handler_count = len(handlers)
    for handler in handlers.values():
        handler(event, payload)
    return handler_count

`handlers` is the *live* inner dict for the event — no copy is taken — so a
handler that subscribes or unsubscribes during the publish mutates the dict
being iterated.  CPython's dict iterator compares the dict's current size with
its size at iterator creation on every `next()` call (including the final one
that would raise `StopIteration`) and raises
`RuntimeError("dictionary changed size during iteration")` on a mismatch.

Handler model for the synchronous bus: a handler emits a finite sequence of
observable side effects (numeric tags), then either raises or performs at most
one call back into the bus (`subscribe` of a fresh no-op handler, or
`unsubscribe`).  Allowing at most one registry call per handler invocation
keeps the model exactly faithful to CPython: a single such call changes the
size of any bucket it touches, so if it touches the published event's own
bucket the very next loop boundary raises `RuntimeError` — the regime in which
CPython's iterator behaviour would depend on tombstoned entry slots (an entry
removed *and* another added between two boundaries) is not expressible, and the
loop below may therefore iterate the sequence of handlers captured at loop
start, guarded by the source's size check at every boundary. -/

/-- A registry call made by a handler from inside a publish: `bus.subscribe`
of a fresh no-op handler on some event, or `bus.unsubscribe` of some id. -/
inductive RegAct where
  | subAct (event : String)
  | unsubAct (sid : String)
deriving DecidableEq

/-- Model of a synchronous handler: observable effects, then either an
exception (`failMsg = some m`; the registry call, if any, is not reached) or
the optional registry call. -/
structure SyncHandler where
  effs : List Nat
  failMsg : Option String
  act : Option RegAct
deriving DecidableEq

/-- The handler a `RegAct.subAct` subscribes: it does nothing. -/
def noopHandler : SyncHandler := ⟨[], none, none⟩

namespace EventBus

/-- Execute a handler's registry call against the bus.  A validation
`AssertionError` raised by the call propagates out of the handler. -/
def runAct (b : BusState SyncHandler) : Option RegAct → Except PyError (BusState SyncHandler)
  | none => .ok b
  | some (.subAct e) => (subscribe b e (.callable noopHandler)).map (fun p => p.2)
  | some (.unsubAct sid) => (unsubscribe b sid).map (fun p => p.2)

/-- The `for handler in handlers.values():` loop of `EventBus.publish`.
`n0` is the dict size recorded by the iterator at loop start, `pending` the
handlers not yet yielded; before yielding each handler — and once more before
raising `StopIteration` — the iterator checks that the current size of the
event's bucket still equals `n0`. -/
def dispatchLoop (event : String) (n0 : Nat) :
    List (String × SyncHandler) → BusState SyncHandler → List Nat →
    Except PyError Nat × List Nat × BusState SyncHandler
  | [], b, log =>
    if (alistGetD b.subscribers event []).length ≠ n0 then
      (.error (.runtimeError "dictionary changed size during iteration"), log, b)
    else
      (.ok n0, log, b)
  | (_, h) :: rest, b, log =>
    if (alistGetD b.subscribers event []).length ≠ n0 then
      (.error (.runtimeError "dictionary changed size during iteration"), log, b)
    else
      let log' := log ++ h.effs
      match h.failMsg with
      | some m => (.error (.handlerError m), log', b)
      | none =>
        match runAct b h.act with
        | .error e => (.error e, log', b)
        | .ok b' => dispatchLoop event n0 rest b' log'

/-- `EventBus.publish` (sync_bus.py lines 136-178).  Returns the publish
result (`handler_count`, or the propagated exception), the sequence of
observable handler effects, and the final registry state. -/
def publish (b : BusState SyncHandler) (event : String) :
    Except PyError Nat × List Nat × BusState SyncHandler :=
  if event = "" then (.error (.assertionError "Event name cannot be empty"), [], b)
  else
    let bucket := alistGetD b.subscribers event []
    dispatchLoop event bucket.length bucket b []

/-- Dispatch loop of the snapshot semantics that §4.2 and the glossary of the
design document describe.  This definition follows the spec's words, not the
source, for comparison with `EventBus.publish`: the snapshot is fixed at the
start of the call and is immune to registry changes made by handlers. -/
def snapshotLoop :
    List (String × SyncHandler) → BusState SyncHandler → List Nat →
    Except PyError Unit × List Nat × BusState SyncHandler
  | [], b, log => (.ok (), log, b)
  | (_, h) :: rest, b, log =>
    let log' := log ++ h.effs
    match h.failMsg with
    | some m => (.error (.handlerError m), log', b)
    | none =>
      match runAct b h.act with
      | .error e => (.error e, log', b)
      | .ok b' => snapshotLoop rest b' log'

/-- Publish under the snapshot semantics the design document specifies
("snapshot the current ordered set of handlers registered for `event_name`;
...  concurrent subscribe/unsubscribe during a publish affects only bus
state, not the already-taken snapshot").  Follows the spec's words, for
comparison with the source-derived `EventBus.publish`. -/
def publishSnapshotSpec (b : BusState SyncHandler) (event : String) :
    Except PyError Nat × List Nat × BusState SyncHandler :=
  if event = "" then (.error (.assertionError "Event name cannot be empty"), [], b)
  else
    let snapshot := alistGetD b.subscribers event []
    match snapshotLoop snapshot b [] with
    | (.ok (), log, b') => (.ok snapshot.length, log, b')
    | (.error e, log, b') => (.error e, log, b')

end EventBus

/-! ## The asynchronous dispatcher

`AsyncEventBus.publish` (async_bus.py lines 133-174):

    handlers = self._subscribers.get(event, {})
    handler_count = len(handlers)
    if handler_count > 0:
        tasks = [handler(event, payload) for handler in handlers.values()]
        await asyncio.gather(*tasks)
    return handler_count

The list comprehension only *creates* the coroutines, so the task list is a
genuine snapshot taken before anything runs, and the publish body itself never
writes to the registry.  `asyncio.gather` is used with its default
`return_exceptions=False`, whose documented contract is: the first exception
raised by a child is propagated to the task awaiting the `gather` as soon as
that child finishes; the other children are *not* cancelled and continue to
run, and their later exceptions, if any, are consumed silently.

Handler model for the asynchronous bus: a coroutine is a finite list of
segments separated by its await points; each segment either emits one
observable effect and suspends (or returns, if it is the last one), or raises.
The model below executes asyncio's event loop for this program exactly:

* the loop owns a FIFO ready-queue of callbacks;
* `gather` wraps each coroutine in a task, scheduling its first run with
  `call_soon`, in snapshot order;
* running a task executes one segment: an effect segment emits and re-enters
  the queue (its `await` resolves via `call_soon`), the last segment or a
  raising segment finishes the task, which schedules gather's done-callback
  via `call_soon`;
* gather's done-callback records one finished child; the first erroring child
  (or the last successful one, if none errors) completes the outer future,
  which wakes the publishing coroutine via `call_soon`;
* when the wake callback runs, `publish` returns (`LoopState.retLog` records
  the effects emitted up to that instant); the still-pending task callbacks
  keep running afterwards. -/

/-- One segment of an async handler between await points: emit an observable
effect and yield (or return, if last), or raise. -/
inductive AStep where
  | eff (tag : Nat)
  | fail (msg : String)
deriving DecidableEq

/-- An async handler: its segments in program order. -/
abbrev AHandler := List AStep

/-- The effects a handler emits when run to completion: every effect before
its first raise. -/
def emitsA : AHandler → List Nat
  | [] => []
  | .eff n :: rest => n :: emitsA rest
  | .fail _ :: _ => []

/-- Whether a handler raises when run. -/
def hasFailA : AHandler → Bool
  | [] => false
  | .eff _ :: rest => hasFailA rest
  | .fail _ :: _ => true

/-- The message of the exception a handler raises, if it raises. -/
def firstFailA : AHandler → Option String
  | [] => none
  | .eff _ :: rest => firstFailA rest
  | .fail m :: _ => some m

/-- A callback in the event loop's ready queue: run one segment of task
`tid`, run gather's done-callback for task `tid`, or wake the publishing
coroutine. -/
inductive Cb where
  | step (tid : Nat)
  | gcb (tid : Nat)
  | wake
deriving DecidableEq

/-- The event-loop state while `await asyncio.gather(*tasks)` executes.
`done` holds `none` for a running task, `some none` for one that returned and
`some (some m)` for one that raised `m`; `outer` is the gather future in the
same encoding; `nfinished` is gather's count of successfully finished
children; `retLog` records the effect log at the instant the publishing
coroutine was resumed. -/
structure LoopState where
  queue : List Cb
  tasks : List AHandler
  done : List (Option (Option String))
  nfinished : Nat
  outer : Option (Option String)
  log : List Nat
  retLog : Option (List Nat)
deriving DecidableEq

/-- Process one ready callback (the callback has already been removed from
the front of `st.queue`). -/
def processCb (st : LoopState) : Cb → LoopState
  | .step tid =>
    match st.tasks.getD tid [] with
    | [] =>
      { st with done := st.done.set tid (some none), queue := st.queue ++ [.gcb tid] }
    | .eff n :: rest =>
      if rest.isEmpty then
        { st with log := st.log ++ [n], tasks := st.tasks.set tid [],
                  done := st.done.set tid (some none), queue := st.queue ++ [.gcb tid] }
      else
        { st with log := st.log ++ [n], tasks := st.tasks.set tid rest,
                  queue := st.queue ++ [.step tid] }
    | .fail m :: _ =>
      { st with tasks := st.tasks.set tid [], done := st.done.set tid (some (some m)),
                queue := st.queue ++ [.gcb tid] }
  | .gcb tid =>
    match st.done.getD tid none with
    | some (some m) =>
      if st.outer.isNone then
        { st with outer := some (some m), queue := st.queue ++ [.wake] }
      else st
    | some none =>
      let nf := st.nfinished + 1
      if nf = st.tasks.length && st.outer.isNone then
        { st with nfinished := nf, outer := some none, queue := st.queue ++ [.wake] }
      else { st with nfinished := nf }
    | none => st
  | .wake => { st with retLog := some st.log }

/-- Run the event loop until the ready queue empties (or fuel runs out; the
fuel passed by `AsyncEventBus.publish` is shown sufficient below). -/
def loopRun : Nat → LoopState → LoopState
  | 0, st => st
  | fuel + 1, st =>
    match st.queue with
    | [] => st
    | cb :: rest => loopRun fuel (processCb { st with queue := rest } cb)

/-- The initial loop state for a cohort of tasks: every task scheduled once,
in snapshot order. -/
def initLoop (tasks : List AHandler) : LoopState :=
  { queue := (List.range tasks.length).map Cb.step
    tasks := tasks
    done := List.replicate tasks.length none
    nfinished := 0
    outer := none
    log := []
    retLog := none }

namespace AsyncEventBus

/-- Registry operations of `AsyncEventBus` (async_bus.py lines 42-131 and
176-233): their bodies are textually identical to the synchronous ones, so
they are the same functions of the shared state. -/
abbrev subscribe {H : Type} := @EventBus.subscribe H

abbrev unsubscribe {H : Type} := @EventBus.unsubscribe H

abbrev clear {H : Type} := @EventBus.clear H

abbrev count_subscribers {H : Type} := @EventBus.count_subscribers H

/-- Outcome of one `AsyncEventBus.publish` call: the value returned or
exception raised, the effects emitted up to the moment publish returned, the
effects emitted by the whole cohort (the uncancelled handlers keep running
after a failed publish has returned), and the registry afterwards. -/
structure PublishOut where
  result : Except PyError Nat
  logAtReturn : List Nat
  fullLog : List Nat
  bus : BusState AHandler

/-- Fuel that bounds the number of callbacks the loop can ever process:
each task with `k` segments is worth `k + 3` callbacks (its runs, its
done-callback and a possible wake). -/
def loopFuel (tasks : List AHandler) : Nat :=
  (tasks.map (fun t => t.length + 3)).sum + 1

/-- `AsyncEventBus.publish` (async_bus.py lines 133-174). -/
def publish (b : BusState AHandler) (event : String) : PublishOut :=
  if event = "" then ⟨.error (.assertionError "Event name cannot be empty"), [], [], b⟩
  else
    let tasks := (alistGetD b.subscribers event []).map Prod.snd
    let handler_count := tasks.length
    if handler_count > 0 then
      let final := loopRun (loopFuel tasks) (initLoop tasks)
      let result : Except PyError Nat :=
        match final.outer with
        | some (some m) => .error (.handlerError m)
        | some none => .ok handler_count
        | none => .error (.runtimeError "gather did not complete")
      ⟨result, final.retLog.getD [], final.log, b⟩
    else
      ⟨.ok 0, [], [], b⟩

end AsyncEventBus

/-! ## Predicates and concrete states used by the theorems -/

namespace EventBus

/-- A registry call whose own argument passes the bus validation (the claims
about publish quantify over handlers whose calls into the bus are themselves
well-formed; a handler calling `subscribe("")` would let that call's
`AssertionError` escape through the publish). -/
def ValidAct : Option RegAct → Prop
  | none => True
  | some (.subAct e) => e ≠ ""
  | some (.unsubAct sid) => sid ≠ ""

/-- A registry call that does not touch the bucket of the event being
published (`e`): it subscribes to a different event or unsubscribes an
identifier outside `e`'s bucket (`ids` is that bucket's identifier list). -/
def ActAvoids (e : String) (ids : List String) : Option RegAct → Prop
  | none => True
  | some (.subAct e') => e' ≠ e ∧ e' ≠ ""
  | some (.unsubAct sid) => sid ∉ ids ∧ sid ≠ ""

/-- The bus state a handler's registry call leaves behind (identity when the
call fails validation, which cannot happen for a `ValidAct`). -/
def actApply (b : BusState SyncHandler) (h : SyncHandler) : BusState SyncHandler :=
  match runAct b h.act with
  | .ok b' => b'
  | .error _ => b

end EventBus

/-- The multiset of effects a cohort of async handlers emits when every one
of them runs to its own completion. -/
def emitsSum (ts : List AHandler) : Multiset Nat :=
  (ts.map (fun t => ((emitsA t : List Nat) : Multiset Nat))).sum

/-- Weight of one ready callback: an upper bound on the number of callbacks
its processing can still give rise to (including itself). -/
def cbWeight (tasks : List AHandler) : Cb → Nat
  | .step tid => (tasks.getD tid []).length + 3
  | .gcb _ => 2
  | .wake => 1

/-- Total weight of the ready queue: strictly decreases at every processed
callback, bounding the loop's running time. -/
def queueWeight (st : LoopState) : Nat :=
  (st.queue.map (cbWeight st.tasks)).sum

/-- Phase of one task `tid` of the original cohort `T` during the loop:
either still running (exactly one pending run callback, no pending
done-callback, and its remaining segments agree with its program on whether
and how it will raise), or finished with outcome `r` (no pending run
callback, at most one pending done-callback, and `r` faithful to its
program). -/
def taskInv (T : List AHandler) (st : LoopState) (tid : Nat) : Prop :=
  (st.done.getD tid none = none ∧
     st.queue.count (Cb.step tid) = 1 ∧
     st.queue.count (Cb.gcb tid) = 0 ∧
     firstFailA (st.tasks.getD tid []) = firstFailA (T.getD tid []) ∧
     hasFailA (st.tasks.getD tid []) = hasFailA (T.getD tid [])) ∨
  (∃ r, st.done.getD tid none = some r ∧
     st.queue.count (Cb.step tid) = 0 ∧
     st.queue.count (Cb.gcb tid) ≤ 1 ∧
     st.tasks.getD tid [] = [] ∧
     (r = none → hasFailA (T.getD tid []) = false) ∧
     (∀ m, r = some m → firstFailA (T.getD tid []) = some m))

/-- A ready callback references a task of the cohort (of size `n`). -/
def cbValid (n : Nat) : Cb → Prop
  | .step tid => tid < n
  | .gcb tid => tid < n
  | .wake => True

/-- The tasks gather has counted as successfully finished: task finished with
`none` and its done-callback already processed. -/
def okSettledCount (st : LoopState) (n : Nat) : Nat :=
  (List.range n).countP
    (fun tid => decide (st.done.getD tid none = some none ∧
                        st.queue.count (Cb.gcb tid) = 0))

/-- Invariant of the modelled event loop, relative to the original cohort
`T`. -/
def InvAsync (T : List AHandler) (st : LoopState) : Prop :=
  st.tasks.length = T.length ∧
  st.done.length = T.length ∧
  (∀ tid, tid < T.length → taskInv T st tid) ∧
  (st.log : Multiset Nat) + emitsSum st.tasks = emitsSum T ∧
  (∀ m, st.outer = some (some m) →
    ∃ tid, tid < T.length ∧ st.done.getD tid none = some (some m)) ∧
  (st.outer = some none → st.nfinished = T.length) ∧
  (∀ tid m, tid < T.length → st.done.getD tid none = some (some m) →
    st.queue.count (Cb.gcb tid) = 0 → st.outer.isSome) ∧
  st.nfinished = okSettledCount st T.length ∧
  (st.nfinished = T.length → st.outer.isSome) ∧
  (∀ c ∈ st.queue, cbValid T.length c)

/-- Concrete input refuting claim C2: a handler that subscribes a no-op
handler to the very event being published. -/
def mutHandler : SyncHandler := ⟨[], none, some (.subAct "order.created")⟩

/-- The bus obtained by subscribing `mutHandler` to `"order.created"` on an
empty synchronous bus. -/
def busC2 : BusState SyncHandler :=
  ⟨[("order.created", [(freshId 0, mutHandler)])], 1⟩

/-- Concrete input refuting claim C1: a handler that raises at its first
step. -/
def taskFailC1 : AHandler := [.fail "boom"]

/-- Concrete input refuting claim C1: a well-behaved handler with three await
segments. -/
def taskSlowC1 : AHandler := [.eff 1, .eff 2, .eff 3]

/-- The bus obtained by subscribing `taskFailC1` then `taskSlowC1` to
`"order.created"` on an empty asynchronous bus. -/
def busC1 : BusState AHandler :=
  ⟨[("order.created", [(freshId 0, taskFailC1), (freshId 1, taskSlowC1)])], 2⟩

/-- A concrete synchronous bus with three subscribers on `"order.created"`
whose second handler raises: used to instantiate the claims about sync
failure propagation. -/
def busC3 : BusState SyncHandler :=
  ⟨[("order.created",
     [(freshId 0, ⟨[10], none, none⟩),
      (freshId 1, ⟨[20], some "boom", none⟩),
      (freshId 2, ⟨[30], none, none⟩)])], 3⟩

/-- A concrete bus with one subscription, used to instantiate the registry
claims. -/
def busW : BusState Nat := ⟨[("order.created", [(freshId 0, 7)])], 1⟩

/-- A concrete synchronous bus whose single handler emits an effect and then
subscribes a no-op handler to a different event. -/
def busC2W : BusState SyncHandler :=
  ⟨[("order.created", [(freshId 0, ⟨[7], none, some (.subAct "user.login")⟩)])], 1⟩

/-! ## Association-list lemmas -/

theorem alistGet_set_self {α : Type} (d : List (String × α)) (k : String) (v : α) :
    alistGet (alistSet d k v) k = some v := by
  induction d with
  | nil => simp [alistSet, alistGet]
  | cons p rest ih =>
    obtain ⟨k', v'⟩ := p
    by_cases h : k' = k
    · simp [alistSet, h, alistGet]
    · simp [alistSet, h, alistGet, ih]

theorem alistGet_set_ne {α : Type} (d : List (String × α)) {k k' : String} (v : α)
    (hne : k' ≠ k) : alistGet (alistSet d k v) k' = alistGet d k' := by
  induction d with
  | nil => simp [alistSet, alistGet, Ne.symm hne]
  | cons p rest ih =>
    obtain ⟨k₀, v₀⟩ := p
    by_cases h : k₀ = k
    · subst h
      simp [alistSet, alistGet, Ne.symm hne]
    · simp [alistSet, h, alistGet, ih]

theorem alistGet_eq_none {α : Type} (d : List (String × α)) (k : String) :
    alistGet d k = none ↔ k ∉ d.map Prod.fst := by
  induction d with
  | nil => simp [alistGet]
  | cons p rest ih =>
    obtain ⟨k', v'⟩ := p
    by_cases h : k' = k
    · subst h
      simp [alistGet]
    · simp [alistGet, h, ih, Ne.symm h]

theorem alistGet_mem {α : Type} {d : List (String × α)} {k : String} {v : α}
    (h : alistGet d k = some v) : (k, v) ∈ d := by
  induction d with
  | nil => simp [alistGet] at h
  | cons p rest ih =>
    obtain ⟨k', v'⟩ := p
    by_cases hk : k' = k
    · subst hk
      simp [alistGet] at h
      simp [h]
    · simp [alistGet, hk] at h
      exact List.mem_cons_of_mem _ (ih h)

theorem alistSet_of_get_none {α : Type} {d : List (String × α)} {k : String}
    (h : alistGet d k = none) (v : α) : alistSet d k v = d ++ [(k, v)] := by
  induction d with
  | nil => simp [alistSet]
  | cons p rest ih =>
    obtain ⟨k', v'⟩ := p
    by_cases hk : k' = k
    · subst hk
      simp [alistGet] at h
    · simp [alistGet, hk] at h
      simp [alistSet, hk, ih h]

theorem alistSet_mem {α : Type} {d : List (String × α)} {k : String} {v : α}
    {p : String × α} (h : p ∈ alistSet d k v) : p = (k, v) ∨ p ∈ d := by
  induction d with
  | nil => simpa [alistSet] using h
  | cons q rest ih =>
    obtain ⟨k', v'⟩ := q
    by_cases hk : k' = k
    · subst hk
      rcases List.mem_cons.mp (by simpa [alistSet] using h) with h' | h'
      · exact Or.inl h'
      · exact Or.inr (List.mem_cons_of_mem _ h')
    · rcases List.mem_cons.mp (by simpa [alistSet, hk] using h) with h' | h'
      · exact Or.inr (by simp [h'])
      · rcases ih h' with h'' | h''
        · exact Or.inl h''
        · exact Or.inr (List.mem_cons_of_mem _ h'')

theorem alistSet_ne_nil {α : Type} (d : List (String × α)) (k : String) (v : α) :
    alistSet d k v ≠ [] := by
  cases d with
  | nil => simp [alistSet]
  | cons p rest =>
    obtain ⟨k', v'⟩ := p
    by_cases hk : k' = k <;> simp [alistSet, hk]

theorem alistRemoveKey_keys {α : Type} (d : List (String × α)) (k : String) :
    (alistRemoveKey d k).map Prod.fst = (d.map Prod.fst).erase k := by
  induction d with
  | nil => simp [alistRemoveKey]
  | cons p rest ih =>
    obtain ⟨k', v'⟩ := p
    by_cases hk : k' = k
    · subst hk
      simp [alistRemoveKey, List.erase_cons]
    · simp [alistRemoveKey, hk, List.erase_cons, ih]

theorem alistGet_removeKey_ne {α : Type} (d : List (String × α)) {k k' : String}
    (hne : k' ≠ k) : alistGet (alistRemoveKey d k) k' = alistGet d k' := by
  induction d with
  | nil => simp [alistRemoveKey]
  | cons p rest ih =>
    obtain ⟨k₀, v₀⟩ := p
    by_cases hk : k₀ = k
    · subst hk
      simp [alistRemoveKey, alistGet, Ne.symm hne]
    · simp [alistRemoveKey, hk, alistGet, ih]

theorem sum_lengths_set {α : Type} (d : List (String × List α)) (k : String)
    (v : List α) :
    ((alistSet d k v).map (fun p => p.2.length)).sum + (alistGetD d k []).length =
      (d.map (fun p => p.2.length)).sum + v.length := by
  induction d with
  | nil => simp [alistSet, alistGetD, alistGet]
  | cons p rest ih =>
    obtain ⟨k', v'⟩ := p
    by_cases hk : k' = k
    · subst hk
      simp [alistSet, alistGetD, alistGet]
      omega
    · have h1 : alistSet ((k', v') :: rest) k v = (k', v') :: alistSet rest k v := by
        simp [alistSet, hk]
      have h2 : alistGetD ((k', v') :: rest) k [] = alistGetD rest k [] := by
        simp [alistGetD, alistGet, hk]
      rw [h1, h2]
      simp only [List.map_cons, List.sum_cons]
      omega

/-! ## Registry lemmas shared by the claims -/

namespace EventBus

theorem mem_idsOf {H : Type} {subs : List (String × List (String × H))} {id : String} :
    id ∈ idsOf subs ↔ ∃ p ∈ subs, id ∈ p.2.map Prod.fst := by
  simp only [idsOf]
  constructor
  · intro h
    rcases List.mem_flatten.mp h with ⟨l, hl, hid⟩
    rcases List.mem_map.mp hl with ⟨p, hp, rfl⟩
    exact ⟨p, hp, hid⟩
  · rintro ⟨p, hp, hid⟩
    exact List.mem_flatten.mpr ⟨p.2.map Prod.fst, List.mem_map.mpr ⟨p, hp, rfl⟩, hid⟩

theorem mem_busIds_of_mem_bucket {H : Type} {b : BusState H} {e id : String}
    (h : id ∈ (alistGetD b.subscribers e []).map Prod.fst) : id ∈ busIds b := by
  rcases hget : alistGet b.subscribers e with _ | hs
  · simp [alistGetD, hget] at h
  · simp only [alistGetD, hget, Option.getD_some] at h
    exact mem_idsOf.mpr ⟨(e, hs), alistGet_mem hget, h⟩

theorem WF.fresh_not_in_bucket {H : Type} {b : BusState H} (hwf : WF b) (e : String) :
    alistGet (alistGetD b.subscribers e []) (freshId b.nextId) = none := by
  by_contra h
  rcases Option.ne_none_iff_exists'.mp h with ⟨v, hv⟩
  have hmem : freshId b.nextId ∈ (alistGetD b.subscribers e []).map Prod.fst :=
    List.mem_map.mpr ⟨(freshId b.nextId, v), alistGet_mem hv, rfl⟩
  rcases hwf.2 _ (mem_busIds_of_mem_bucket hmem) with ⟨k, hk, hkid⟩
  have := freshId_injective hkid
  omega

theorem idsOf_set_perm {H : Type} (subs : List (String × List (String × H)))
    (e sid : String) (h : H) :
    List.Perm (idsOf (alistSet subs e (alistGetD subs e [] ++ [(sid, h)])))
      (sid :: idsOf subs) := by
  induction subs with
  | nil => simp [alistSet, alistGetD, alistGet, idsOf]
  | cons p rest ih =>
    obtain ⟨k, hs⟩ := p
    by_cases hk : k = e
    · subst hk
      have hset : alistSet ((k, hs) :: rest) k (alistGetD ((k, hs) :: rest) k [] ++ [(sid, h)]) =
          (k, hs ++ [(sid, h)]) :: rest := by
        simp [alistSet, alistGetD, alistGet]
      rw [hset]
      simp only [idsOf, List.map_cons, List.flatten_cons, List.map_append, List.map_nil]
      have h1 : List.Perm (hs.map Prod.fst ++ [sid]) (sid :: hs.map Prod.fst) := by
        have := @List.perm_middle String sid (hs.map Prod.fst) []
        simp only [List.append_nil] at this
        exact this
      exact List.Perm.append_right _ h1
    · have hd : alistGetD ((k, hs) :: rest) e [] = alistGetD rest e [] := by
        simp [alistGetD, alistGet, hk]
      rw [hd]
      simp only [alistSet, if_neg hk, idsOf, List.map_cons, List.flatten_cons]
      refine List.Perm.trans (List.Perm.append_left _ (by simpa [idsOf] using ih)) ?_
      exact List.perm_middle

theorem count_none_eq_busIds_length {H : Type} (b : BusState H) :
    count_subscribers b none = (busIds b).length := by
  simp [count_subscribers, busIds, idsOf, List.length_flatten, List.map_map,
    Function.comp_def, List.length_map]

/-- Full characterisation of a successful `subscribe` on a well-formed bus. -/
theorem subscribe_spec {H : Type} {b : BusState H} {e : String} (h : H)
    (hwf : WF b) (he : e ≠ "") :
    ∃ b', subscribe b e (.callable h) = .ok (freshId b.nextId, b') ∧
      b'.nextId = b.nextId + 1 ∧
      alistGetD b'.subscribers e [] = alistGetD b.subscribers e [] ++ [(freshId b.nextId, h)] ∧
      (∀ e', e' ≠ e → alistGet b'.subscribers e' = alistGet b.subscribers e') ∧
      count_subscribers b' none = count_subscribers b none + 1 ∧
      List.Perm (busIds b') (freshId b.nextId :: busIds b) ∧
      WF b' := by
  have hfresh := hwf.fresh_not_in_bucket e
  have hset : alistSet (alistGetD b.subscribers e []) (freshId b.nextId) h =
      alistGetD b.subscribers e [] ++ [(freshId b.nextId, h)] :=
    alistSet_of_get_none hfresh h
  have hperm := idsOf_set_perm b.subscribers e (freshId b.nextId) h
  refine ⟨⟨alistSet b.subscribers e (alistGetD b.subscribers e [] ++ [(freshId b.nextId, h)]),
           b.nextId + 1⟩, ?_, rfl, ?_, ?_, ?_, ?_, ?_⟩
  · simp [subscribe, he, hset]
  · simp [alistGetD, alistGet_set_self]
  · intro e' hne
    exact alistGet_set_ne _ _ hne
  · have := sum_lengths_set b.subscribers e
      (alistGetD b.subscribers e [] ++ [(freshId b.nextId, h)])
    simp only [count_subscribers]
    simp only [List.length_append, List.length_singleton] at this
    omega
  · exact hperm
  · constructor
    · refine hperm.nodup_iff.mpr ?_
      refine List.nodup_cons.mpr ⟨?_, hwf.1⟩
      intro hmem
      rcases hwf.2 _ hmem with ⟨k, hk, hkid⟩
      have := freshId_injective hkid
      omega
    · intro id hid
      rcases List.mem_cons.mp (hperm.mem_iff.mp hid) with hc | hc
      · exact ⟨b.nextId, Nat.lt_succ_self _, hc.symm⟩
      · rcases hwf.2 _ hc with ⟨k, hk, hkid⟩
        exact ⟨k, Nat.lt_succ_of_lt hk, hkid⟩

end EventBus

namespace EventBus

theorem subLookupAux_eq_none {H : Type} {subs : List (String × List (String × H))}
    {sid : String} (h : sid ∉ idsOf subs) : subLookupAux subs sid = none := by
  induction subs with
  | nil => rfl
  | cons p rest ih =>
    obtain ⟨e, hs⟩ := p
    have h1 : sid ∉ hs.map Prod.fst := by
      intro hc
      exact h (mem_idsOf.mpr ⟨(e, hs), List.mem_cons_self _ _, hc⟩)
    have h2 : sid ∉ idsOf rest := by
      intro hc
      rcases mem_idsOf.mp hc with ⟨p, hp, hp2⟩
      exact h (mem_idsOf.mpr ⟨p, List.mem_cons_of_mem _ hp, hp2⟩)
    have hget : alistGet hs sid = none := (alistGet_eq_none hs sid).mpr h1
    simp [subLookupAux, hget, ih h2]

theorem removeFirst_not_found {H : Type} {subs : List (String × List (String × H))}
    {sid : String} (h : sid ∉ idsOf subs) : removeFirst subs sid = (false, subs) := by
  induction subs with
  | nil => rfl
  | cons p rest ih =>
    obtain ⟨e, hs⟩ := p
    have h1 : sid ∉ hs.map Prod.fst := by
      intro hc
      exact h (mem_idsOf.mpr ⟨(e, hs), List.mem_cons_self _ _, hc⟩)
    have h2 : sid ∉ idsOf rest := by
      intro hc
      rcases mem_idsOf.mp hc with ⟨p, hp, hp2⟩
      exact h (mem_idsOf.mpr ⟨p, List.mem_cons_of_mem _ hp, hp2⟩)
    have hget : alistGet hs sid = none := (alistGet_eq_none hs sid).mpr h1
    simp [removeFirst, hget, ih h2]

theorem idsOf_cons {H : Type} (e : String) (hs : List (String × H))
    (rest : List (String × List (String × H))) :
    idsOf ((e, hs) :: rest) = hs.map Prod.fst ++ idsOf rest := by
  simp [idsOf]

/-- Behaviour of the `unsubscribe` search loop when the identifier is present
in a registry with globally distinct identifiers: it reports success, removes
exactly the one matching subscription, and leaves every other subscription's
binding intact. -/
theorem removeFirst_spec {H : Type} {subs : List (String × List (String × H))}
    {sid : String} (hnd : (idsOf subs).Nodup) (hmem : sid ∈ idsOf subs) :
    (removeFirst subs sid).1 = true ∧
    idsOf (removeFirst subs sid).2 = (idsOf subs).erase sid ∧
    subLookupAux (removeFirst subs sid).2 sid = none ∧
    ∀ id, id ≠ sid → subLookupAux (removeFirst subs sid).2 id = subLookupAux subs id := by
  induction subs with
  | nil => simp [idsOf] at hmem
  | cons p rest ih =>
    obtain ⟨e, hs⟩ := p
    rw [idsOf_cons] at hnd hmem
    have hnd1 : (hs.map Prod.fst).Nodup := hnd.of_append_left
    have hnd2 : (idsOf rest).Nodup := hnd.of_append_right
    have hdisj : ∀ a ∈ hs.map Prod.fst, a ∉ idsOf rest := by
      intro a ha hc
      exact (List.disjoint_of_nodup_append hnd) ha hc
    by_cases hin : sid ∈ hs.map Prod.fst
    · have hget : (alistGet hs sid).isSome := by
        rcases Option.eq_none_or_eq_some (alistGet hs sid) with hn | ⟨v, hv⟩
        · exact absurd ((alistGet_eq_none hs sid).mp hn) (by simp [hin])
        · simp [hv]
      have hkeys : (alistRemoveKey hs sid).map Prod.fst = (hs.map Prod.fst).erase sid :=
        alistRemoveKey_keys hs sid
      have hsid_rest : sid ∉ idsOf rest := hdisj sid hin
      by_cases hemp : (alistRemoveKey hs sid).isEmpty
      · -- the bucket became empty and is deleted
        have hres : removeFirst ((e, hs) :: rest) sid = (true, rest) := by
          simp [removeFirst, hget, hemp]
        have herase : (hs.map Prod.fst).erase sid = [] := by
          rw [← hkeys]
          simpa [List.isEmpty_iff] using hemp
        refine ⟨by simp [hres], ?_, ?_, ?_⟩
        · rw [hres]
          show idsOf rest = (idsOf ((e, hs) :: rest)).erase sid
          rw [idsOf_cons, List.erase_append_left _ hin, herase, List.nil_append]
        · rw [hres]
          exact subLookupAux_eq_none hsid_rest
        · intro id hid
          have hsingle : hs.map Prod.fst = [sid] := by
            have hlen : (hs.map Prod.fst).length = 1 := by
              have := List.length_erase_add_one hin
              rw [herase] at this
              simpa using this.symm
            rcases List.length_eq_one.mp hlen with ⟨a, ha⟩
            rw [ha] at hin
            simp at hin
            rw [ha, hin]
          have hidget : alistGet hs id = none := by
            refine (alistGet_eq_none hs id).mpr ?_
            rw [hsingle]
            simp [hid]
          simp [hres, subLookupAux, hidget]
      · -- the bucket keeps other subscriptions
        have hres : removeFirst ((e, hs) :: rest) sid =
            (true, (e, alistRemoveKey hs sid) :: rest) := by
          simp [removeFirst, hget, hemp]
        refine ⟨by simp [hres], ?_, ?_, ?_⟩
        · rw [hres, idsOf_cons, idsOf_cons, hkeys, List.erase_append_left _ hin]
        · have hnot : sid ∉ (alistRemoveKey hs sid).map Prod.fst := by
            rw [hkeys]
            exact hnd1.not_mem_erase
          have hget2 : alistGet (alistRemoveKey hs sid) sid = none :=
            (alistGet_eq_none _ sid).mpr hnot
          rw [hres]
          simp [subLookupAux, hget2, subLookupAux_eq_none hsid_rest]
        · intro id hid
          have hg : alistGet (alistRemoveKey hs sid) id = alistGet hs id :=
            alistGet_removeKey_ne hs hid
          rw [hres]
          simp only [subLookupAux, hg]
    · -- the identifier lives in a later bucket
      have hget : alistGet hs sid = none := (alistGet_eq_none hs sid).mpr hin
      have hmem2 : sid ∈ idsOf rest := by
        rcases List.mem_append.mp hmem with hc | hc
        · exact absurd hc hin
        · exact hc
      rcases ih hnd2 hmem2 with ⟨ih1, ih2, ih3, ih4⟩
      have hres : removeFirst ((e, hs) :: rest) sid =
          ((removeFirst rest sid).1, (e, hs) :: (removeFirst rest sid).2) := by
        simp [removeFirst, hget]
      refine ⟨by simp [hres, ih1], ?_, ?_, ?_⟩
      · rw [hres, idsOf_cons, ih2, idsOf_cons, List.erase_append_right _ hin]
      · simp [hres, subLookupAux, hget, ih3]
      · intro id hid
        rw [hres]
        simp only [subLookupAux]
        rcases hgid : alistGet hs id with _ | v
        · simp [ih4 id hid]
        · rfl

end EventBus

/-! ## Dispatch lemmas for the synchronous bus -/

namespace EventBus

theorem runAct_ok {b : BusState SyncHandler} {h : SyncHandler} (hv : ValidAct h.act) :
    runAct b h.act = .ok (actApply b h) := by
  rcases ha : h.act with _ | a
  · simp [runAct, actApply, ha]
  · rcases a with e | sid
    · rw [ha] at hv
      simp only [ValidAct] at hv
      simp [runAct, actApply, ha, subscribe, hv, Except.map]
    · rw [ha] at hv
      simp only [ValidAct] at hv
      simp [runAct, actApply, ha, unsubscribe, hv, Except.map]

theorem removeFirst_get_preserved {H : Type} {subs : List (String × List (String × H))}
    {e sid : String} {bucket0 : List (String × H)}
    (hget : alistGet subs e = some bucket0) (hsid : sid ∉ bucket0.map Prod.fst) :
    alistGet (removeFirst subs sid).2 e = some bucket0 := by
  induction subs with
  | nil => simp [alistGet] at hget
  | cons p rest ih =>
    obtain ⟨k, hs⟩ := p
    by_cases hk : k = e
    · subst hk
      have hhs : hs = bucket0 := by simpa [alistGet] using hget
      subst hhs
      have hnone : alistGet hs sid = none := (alistGet_eq_none hs sid).mpr hsid
      simp [removeFirst, hnone, alistGet]
    · simp only [alistGet, if_neg hk] at hget
      by_cases hfound : (alistGet hs sid).isSome
      · by_cases hemp : (alistRemoveKey hs sid).isEmpty
        · simp [removeFirst, hfound, hemp, hget]
        · simp [removeFirst, hfound, hemp, alistGet, hk, hget]
      · have hnone : alistGet hs sid = none := by
          rcases Option.eq_none_or_eq_some (alistGet hs sid) with hn | ⟨v, hv⟩
          · exact hn
          · exact absurd (by simp [hv]) hfound
        simp [removeFirst, hnone, alistGet, hk, ih hget]

theorem actApply_get_avoid {b : BusState SyncHandler} {h : SyncHandler}
    {e : String} {bucket0 : List (String × SyncHandler)}
    (hav : ActAvoids e (bucket0.map Prod.fst) h.act)
    (hget : alistGet b.subscribers e = some bucket0) :
    alistGet (actApply b h).subscribers e = some bucket0 := by
  rcases ha : h.act with _ | a
  · simpa [actApply, runAct, ha] using hget
  · rcases a with e' | sid
    · rw [ha] at hav
      simp only [ActAvoids] at hav
      rcases hav with ⟨hne, hne'⟩
      have hred : (actApply b h).subscribers =
          alistSet b.subscribers e'
            (alistSet (alistGetD b.subscribers e' []) (freshId b.nextId) noopHandler) := by
        simp [actApply, runAct, ha, subscribe, hne', Except.map]
      rw [hred, alistGet_set_ne _ _ (Ne.symm hne)]
      exact hget
    · rw [ha] at hav
      simp only [ActAvoids] at hav
      rcases hav with ⟨hnin, hne'⟩
      have hred : (actApply b h).subscribers = (removeFirst b.subscribers sid).2 := by
        simp [actApply, runAct, ha, unsubscribe, hne', Except.map]
      rw [hred]
      exact removeFirst_get_preserved hget hnin

theorem dispatchLoop_avoid {e : String} {bucket0 : List (String × SyncHandler)}
    (pending : List (String × SyncHandler)) (b : BusState SyncHandler) (log : List Nat)
    (hget : alistGet b.subscribers e = some bucket0)
    (hpend : ∀ p ∈ pending, p.2.failMsg = none ∧
      ActAvoids e (bucket0.map Prod.fst) p.2.act) :
    dispatchLoop e bucket0.length pending b log =
      (.ok bucket0.length, log ++ (pending.map (fun p => p.2.effs)).flatten,
       pending.foldl (fun bb p => actApply bb p.2) b) := by
  induction pending generalizing b log with
  | nil =>
    simp [dispatchLoop, alistGetD, hget]
  | cons p rest ih =>
    obtain ⟨sid, h⟩ := p
    rcases hpend (sid, h) (List.mem_cons_self _ _) with ⟨hfail, hav⟩
    have hv : ValidAct h.act := by
      rcases ha : h.act with _ | a
      · simp [ValidAct]
      · rw [ha] at hav
        rcases a with e' | s
        · simp only [ActAvoids] at hav
          simp only [ValidAct]
          exact hav.2
        · simp only [ActAvoids] at hav
          simp only [ValidAct]
          exact hav.2
    have hra : runAct b h.act = .ok (actApply b h) := runAct_ok hv
    have hget' : alistGet (actApply b h).subscribers e = some bucket0 :=
      actApply_get_avoid hav hget
    have hlen : ¬((alistGetD b.subscribers e []).length ≠ bucket0.length) := by
      simp [alistGetD, hget]
    simp only [dispatchLoop, if_neg hlen, hfail, hra]
    rw [ih _ _ hget' (fun q hq => hpend q (List.mem_cons_of_mem _ hq))]
    simp [show h.failMsg = none from hfail]

theorem removeFirst_tidy {H : Type} {subs : List (String × List (String × H))}
    {sid : String} (htidy : ∀ p ∈ subs, p.2 ≠ []) :
    ∀ p ∈ (removeFirst subs sid).2, p.2 ≠ [] := by
  induction subs with
  | nil => simp [removeFirst]
  | cons q rest ih =>
    obtain ⟨e, hs⟩ := q
    have htidy' : ∀ p ∈ rest, p.2 ≠ [] := fun p hp => htidy p (List.mem_cons_of_mem _ hp)
    by_cases hfound : (alistGet hs sid).isSome
    · by_cases hemp : (alistRemoveKey hs sid).isEmpty
      · simpa [removeFirst, hfound, hemp] using htidy'
      · intro p hp
        simp only [removeFirst, if_pos hfound, if_neg hemp] at hp
        rcases List.mem_cons.mp hp with hc | hc
        · rw [hc]
          simpa [List.isEmpty_iff] using hemp
        · exact htidy' p hc
    · intro p hp
      simp only [removeFirst, if_neg hfound] at hp
      rcases List.mem_cons.mp hp with hc | hc
      · rw [hc]
        exact htidy (e, hs) (List.mem_cons_self _ _)
      · exact ih htidy' p hc

theorem runAct_tidy {b b' : BusState SyncHandler} {a : Option RegAct}
    (htidy : Tidy b) (h : runAct b a = .ok b') : Tidy b' := by
  rcases a with _ | a
  · simp [runAct] at h
    rw [← h]
    exact htidy
  · rcases a with e | sid
    · by_cases he : e = ""
      · simp [runAct, subscribe, he, Except.map] at h
      · simp only [runAct, subscribe, if_neg he, Except.map, Except.ok.injEq] at h
        intro p hp
        rw [← h] at hp
        rcases alistSet_mem hp with hc | hc
        · rw [hc]
          exact alistSet_ne_nil _ _ _
        · exact htidy p hc
    · by_cases hs : sid = ""
      · simp [runAct, unsubscribe, hs, Except.map] at h
      · simp only [runAct, unsubscribe, if_neg hs, Except.map, Except.ok.injEq] at h
        intro p hp
        rw [← h] at hp
        exact removeFirst_tidy htidy p hp

theorem dispatchLoop_tidy {e : String} {n0 : Nat}
    (pending : List (String × SyncHandler)) (b : BusState SyncHandler) (log : List Nat)
    (htidy : Tidy b) : Tidy (dispatchLoop e n0 pending b log).2.2 := by
  induction pending generalizing b log with
  | nil =>
    by_cases hc : (alistGetD b.subscribers e []).length ≠ n0 <;>
      simp [dispatchLoop, hc, htidy]
  | cons p rest ih =>
    obtain ⟨sid, h⟩ := p
    by_cases hc : (alistGetD b.subscribers e []).length ≠ n0
    · simp [dispatchLoop, hc, htidy]
    · rcases hfail : h.failMsg with _ | m
      · rcases hra : runAct b h.act with err | b'
        · simp [dispatchLoop, hc, hfail, hra, htidy]
        · simp only [dispatchLoop, if_neg hc, hfail, hra]
          exact ih b' _ (runAct_tidy htidy hra)
      · simp [dispatchLoop, hc, hfail, htidy]

end EventBus

namespace EventBus

theorem alistGet_of_getD_ne_nil {H : Type} {d : List (String × H)}
    {subs : List (String × List (String × H))} {e : String}
    (hd : alistGetD subs e [] = d) (hne : d ≠ []) : alistGet subs e = some d := by
  rcases hg : alistGet subs e with _ | v
  · rw [alistGetD, hg] at hd
    simp only [Option.getD_none] at hd
    exact absurd hd.symm hne
  · rw [alistGetD, hg] at hd
    simp only [Option.getD_some] at hd
    rw [hd]

theorem foldl_actApply_none {pending : List (String × SyncHandler)}
    (h : ∀ p ∈ pending, p.2.act = none) (b : BusState SyncHandler) :
    pending.foldl (fun bb p => actApply bb p.2) b = b := by
  induction pending generalizing b with
  | nil => rfl
  | cons p rest ih =>
    have hp := h p (List.mem_cons_self _ _)
    have : actApply b p.2 = b := by simp [actApply, hp, runAct]
    rw [List.foldl_cons, this]
    exact ih (fun q hq => h q (List.mem_cons_of_mem _ hq)) b

theorem dispatchLoop_no_act {e : String} {n0 : Nat}
    (pending : List (String × SyncHandler)) (b : BusState SyncHandler) (log : List Nat)
    (hact : ∀ p ∈ pending, p.2.act = none) :
    (dispatchLoop e n0 pending b log).2.2 = b := by
  induction pending generalizing log with
  | nil =>
    by_cases hc : (alistGetD b.subscribers e []).length ≠ n0 <;> simp [dispatchLoop, hc]
  | cons p rest ih =>
    obtain ⟨sid, h⟩ := p
    have hp : h.act = none := hact (sid, h) (List.mem_cons_self _ _)
    by_cases hc : (alistGetD b.subscribers e []).length ≠ n0
    · simp [dispatchLoop, hc]
    · rcases hfail : h.failMsg with _ | m
      · have hra : runAct b h.act = .ok b := by simp [hp, runAct]
        simp only [dispatchLoop, if_neg hc, hfail, hra]
        exact ih _ (fun q hq => hact q (List.mem_cons_of_mem _ hq))
      · simp [dispatchLoop, hc, hfail]

theorem dispatchLoop_no_assert {e : String} {n0 : Nat}
    (pending : List (String × SyncHandler)) (b : BusState SyncHandler) (log : List Nat)
    (hpend : ∀ p ∈ pending, ValidAct p.2.act) :
    ∀ m, (dispatchLoop e n0 pending b log).1 ≠ .error (.assertionError m) := by
  induction pending generalizing b log with
  | nil =>
    intro m
    by_cases hc : (alistGetD b.subscribers e []).length ≠ n0 <;> simp [dispatchLoop, hc]
  | cons p rest ih =>
    obtain ⟨sid, h⟩ := p
    intro m
    have hv : ValidAct h.act := hpend (sid, h) (List.mem_cons_self _ _)
    by_cases hc : (alistGetD b.subscribers e []).length ≠ n0
    · simp [dispatchLoop, hc]
    · rcases hfail : h.failMsg with _ | m'
      · have hra : runAct b h.act = .ok (actApply b h) := runAct_ok hv
        simp only [dispatchLoop, if_neg hc, hfail, hra]
        exact ih _ _ (fun q hq => hpend q (List.mem_cons_of_mem _ hq)) m
      · simp [dispatchLoop, hc, hfail]

theorem subscribe_tidy {H : Type} {b b' : BusState H} {e s : String} {h : H}
    (ht : Tidy b) (hs : subscribe b e (.callable h) = .ok (s, b')) : Tidy b' := by
  by_cases he : e = ""
  · simp [subscribe, he] at hs
  · simp only [subscribe, if_neg he, Except.ok.injEq, Prod.mk.injEq] at hs
    intro p hp
    rw [← hs.2] at hp
    rcases alistSet_mem hp with hc | hc
    · rw [hc]
      exact alistSet_ne_nil _ _ _
    · exact ht p hc

theorem unsubscribe_tidy {H : Type} {b b' : BusState H} {sid : String} {r : Bool}
    (ht : Tidy b) (hs : unsubscribe b sid = .ok (r, b')) : Tidy b' := by
  by_cases hid : sid = ""
  · simp [unsubscribe, hid] at hs
  · simp only [unsubscribe, if_neg hid, Except.ok.injEq, Prod.mk.injEq] at hs
    intro p hp
    rw [← hs.2] at hp
    exact removeFirst_tidy ht p hp

end EventBus

/-! ## Claim C3: sync dispatch stops at the failing handler -/

/-- C3: for the synchronous bus with three subscribers on an event, if the
second handler raises during `EventBus.publish`, the first handler's effects
have been observed, the third handler is never invoked (the effect log is
exactly the first handler's effects followed by the second's), and the
error propagates synchronously to the publisher; the registry is left
unchanged. -/
theorem C3_sync_dispatch_stops_at_failing_handler
    (b : BusState SyncHandler) (e : String) (s1 s2 s3 : String)
    (h1 h2 h3 : SyncHandler) (m : String) (he : e ≠ "")
    (hbkt : alistGetD b.subscribers e [] = [(s1, h1), (s2, h2), (s3, h3)])
    (h1fail : h1.failMsg = none) (h1act : h1.act = none)
    (h2fail : h2.failMsg = some m) :
    EventBus.publish b e = (.error (.handlerError m), h1.effs ++ h2.effs, b) := by
  have hlen : ¬((alistGetD b.subscribers e []).length ≠
      ([(s1, h1), (s2, h2), (s3, h3)] : List (String × SyncHandler)).length) := by
    simp [hbkt]
  have hra : EventBus.runAct b h1.act = .ok b := by
    simp [h1act, EventBus.runAct]
  simp only [EventBus.publish, if_neg he, hbkt]
  simp only [EventBus.dispatchLoop, if_neg hlen, h1fail, hra, h2fail]
  simp

/-- Witness for C3 at a concrete bus. -/
theorem C3_witness :
    ("order.created" : String) ≠ "" ∧
    alistGetD busC3.subscribers "order.created" [] =
      [(freshId 0, ⟨[10], none, none⟩), (freshId 1, ⟨[20], some "boom", none⟩),
       (freshId 2, ⟨[30], none, none⟩)] ∧
    EventBus.publish busC3 "order.created" =
      (.error (.handlerError "boom"), [10] ++ [20], busC3) :=
  ⟨by decide, rfl,
   C3_sync_dispatch_stops_at_failing_handler busC3 "order.created"
     (freshId 0) (freshId 1) (freshId 2)
     ⟨[10], none, none⟩ ⟨[20], some "boom", none⟩ ⟨[30], none, none⟩ "boom"
     (by decide) rfl rfl rfl rfl⟩

/-! ## Claim C8: publishing with zero subscribers returns 0 -/

/-- C8: for every non-empty event name with zero active subscriptions —
including any never-subscribed name, and every name after `clear()` —
publish returns 0, invokes no handler and leaves the registry unchanged, in
both bus variants, without raising. -/
theorem C8_publish_zero_subscribers :
    (∀ (b : BusState SyncHandler) (e : String), e ≠ "" →
      EventBus.count_subscribers b (some e) = 0 →
      EventBus.publish b e = (.ok 0, [], b)) ∧
    (∀ (b : BusState AHandler) (e : String), e ≠ "" →
      EventBus.count_subscribers b (some e) = 0 →
      AsyncEventBus.publish b e = ⟨.ok 0, [], [], b⟩) ∧
    (∀ (H : Type) (b : BusState H) (ev : Option String),
      EventBus.count_subscribers (EventBus.clear b) ev = 0) := by
  refine ⟨?_, ?_, ?_⟩
  · intro b e he hcnt
    have hnil : alistGetD b.subscribers e [] = [] := by
      simpa [EventBus.count_subscribers] using hcnt
    simp [EventBus.publish, he, hnil, EventBus.dispatchLoop]
  · intro b e he hcnt
    have hnil : alistGetD b.subscribers e [] = [] := by
      simpa [EventBus.count_subscribers] using hcnt
    simp [AsyncEventBus.publish, he, hnil]
  · intro H b ev
    rcases ev with _ | e <;> simp [EventBus.count_subscribers, EventBus.clear,
      alistGetD, alistGet]

/-- Witness for C8 at concrete inputs. -/
theorem C8_witness :
    (("user.login" : String) ≠ "" ∧
      EventBus.count_subscribers busC3 (some "user.login") = 0 ∧
      EventBus.publish busC3 "user.login" = (.ok 0, [], busC3)) ∧
    EventBus.count_subscribers (EventBus.clear busC3) none = 0 :=
  ⟨⟨by decide, rfl,
    C8_publish_zero_subscribers.1 busC3 "user.login" (by decide) rfl⟩,
   C8_publish_zero_subscribers.2.2 SyncHandler busC3 none⟩

/-! ## Claim C10: publish leaves the registry unchanged -/

/-- C10: a publish call in which no handler mutates the bus leaves the
subscription registry exactly unchanged — for the synchronous bus, whenever
no handler of the published event performs a registry call (handlers may
still raise), the final bus state equals the initial one; the asynchronous
publish never writes to the registry at all.  Registry equality entails that
every event's count and every identifier's handler binding are unchanged. -/
theorem C10_publish_frame :
    (∀ (b : BusState SyncHandler) (e : String),
      (∀ p ∈ alistGetD b.subscribers e [], p.2.act = none) →
      (EventBus.publish b e).2.2 = b) ∧
    (∀ (b : BusState AHandler) (e : String), (AsyncEventBus.publish b e).bus = b) := by
  constructor
  · intro b e hact
    by_cases he : e = ""
    · simp [EventBus.publish, he]
    · simp only [EventBus.publish, if_neg he]
      exact EventBus.dispatchLoop_no_act _ b [] hact
  · intro b e
    by_cases he : e = ""
    · simp [AsyncEventBus.publish, he]
    · simp only [AsyncEventBus.publish, if_neg he]
      split <;> rfl

/-- Witness for C10 at a concrete bus. -/
theorem C10_witness :
    (∀ p ∈ alistGetD busC3.subscribers "order.created" [], p.2.act = none) ∧
    (EventBus.publish busC3 "order.created").2.2 = busC3 :=
  ⟨by decide, C10_publish_frame.1 busC3 "order.created" (by decide)⟩

/-! ## Claim C9: eager validation -/

/-- Helper for C9: a publish on a non-empty event name never surfaces an
`AssertionError` from the asynchronous bus. -/
theorem asyncPublish_no_assert (b : BusState AHandler) {e : String} (he : e ≠ "")
    (m : String) :
    (AsyncEventBus.publish b e).result ≠ .error (.assertionError m) := by
  simp only [AsyncEventBus.publish, if_neg he]
  split
  · rcases hout : (loopRun (AsyncEventBus.loopFuel
        ((alistGetD b.subscribers e []).map Prod.snd))
        (initLoop ((alistGetD b.subscribers e []).map Prod.snd))).outer with _ | r
    · simp [hout]
    · rcases r with _ | m' <;> simp [hout]
  · simp

/-- C9: validation errors are raised eagerly at the offending call, before
any handler can run: `subscribe` rejects an empty event name or a
non-callable handler, `unsubscribe` rejects an empty identifier, and both
publish variants reject an empty event name; conversely, with non-empty
names/identifiers and a callable handler (and handlers whose own registry
calls are well-formed), no validation error is raised. -/
theorem C9_validation_eager :
    (∀ (H : Type) (b : BusState H) (arg : EventBus.HandlerArg H),
      EventBus.subscribe b "" arg = .error (.assertionError "Event name cannot be empty")) ∧
    (∀ (H : Type) (b : BusState H) (e : String), e ≠ "" →
      EventBus.subscribe b e .notCallable =
        .error (.assertionError "Handler must be callable")) ∧
    (∀ (H : Type) (b : BusState H),
      EventBus.unsubscribe b "" = .error (.assertionError "Subscription ID cannot be empty")) ∧
    (∀ (b : BusState SyncHandler),
      (EventBus.publish b "").1 = .error (.assertionError "Event name cannot be empty")) ∧
    (∀ (b : BusState AHandler),
      (AsyncEventBus.publish b "").result =
        .error (.assertionError "Event name cannot be empty")) ∧
    (∀ (H : Type) (b : BusState H) (e : String) (h : H), e ≠ "" →
      ∃ p, EventBus.subscribe b e (.callable h) = .ok p) ∧
    (∀ (H : Type) (b : BusState H) (sid : String), sid ≠ "" →
      ∃ q, EventBus.unsubscribe b sid = .ok q) ∧
    (∀ (b : BusState SyncHandler) (e : String), e ≠ "" →
      (∀ p ∈ alistGetD b.subscribers e [], EventBus.ValidAct p.2.act) →
      ∀ m, (EventBus.publish b e).1 ≠ .error (.assertionError m)) ∧
    (∀ (b : BusState AHandler) (e : String), e ≠ "" →
      ∀ m, (AsyncEventBus.publish b e).result ≠ .error (.assertionError m)) := by
  refine ⟨?_, ?_, ?_, ?_, ?_, ?_, ?_, ?_, ?_⟩
  · intro H b arg
    simp [EventBus.subscribe]
  · intro H b e he
    simp [EventBus.subscribe, he]
  · intro H b
    simp [EventBus.unsubscribe]
  · intro b
    simp [EventBus.publish]
  · intro b
    simp [AsyncEventBus.publish]
  · intro H b e h he
    refine ⟨(freshId b.nextId,
      ⟨alistSet b.subscribers e (alistSet (alistGetD b.subscribers e []) (freshId b.nextId) h),
       b.nextId + 1⟩), ?_⟩
    simp [EventBus.subscribe, he]
  · intro H b sid hsid
    refine ⟨((EventBus.removeFirst b.subscribers sid).1,
      ⟨(EventBus.removeFirst b.subscribers sid).2, b.nextId⟩), ?_⟩
    simp [EventBus.unsubscribe, hsid]
  · intro b e he hval m
    simp only [EventBus.publish, if_neg he]
    exact EventBus.dispatchLoop_no_assert _ b [] hval m
  · intro b e he m
    exact asyncPublish_no_assert b he m

/-- Witness for C9 at concrete inputs. -/
theorem C9_witness :
    (("order.created" : String) ≠ "" ∧
      ∃ p, EventBus.subscribe busW "order.created" (.callable 9) = .ok p) ∧
    (∀ p ∈ alistGetD busC3.subscribers "order.created" [], EventBus.ValidAct p.2.act) ∧
    (∀ m, (EventBus.publish busC3 "order.created").1 ≠ .error (.assertionError m)) :=
  ⟨⟨by decide, C9_validation_eager.2.2.2.2.2.1 Nat busW "order.created" 9 (by decide)⟩,
   by
     intro p hp
     fin_cases hp <;> exact trivial,
   C9_validation_eager.2.2.2.2.2.2.2.1 busC3 "order.created" (by decide)
     (by
       intro p hp
       fin_cases hp <;> exact trivial)⟩

/-! ## Claim C4: handlers run sequentially in registration order -/

theorem WF_empty (H : Type) : EventBus.WF (BusState.empty H) := by
  constructor
  · simp [EventBus.busIds, EventBus.idsOf, BusState.empty]
  · intro id hid
    simp [EventBus.busIds, EventBus.idsOf, BusState.empty] at hid

/-- C4: subscribing H1 then H2 to one event appends them in that order, and a
sync publish then runs the handlers sequentially in registration order — the
effect log is the concatenation, in bucket order, of each handler's complete
effect sequence, with H1's effects finished before H2's begin. -/
theorem C4_sync_registration_order (b : BusState SyncHandler) (e : String)
    (H1 H2 : SyncHandler) (hwf : EventBus.WF b) (he : e ≠ "")
    (hbkt : ∀ p ∈ alistGetD b.subscribers e [], p.2.failMsg = none ∧ p.2.act = none)
    (h1f : H1.failMsg = none) (h1a : H1.act = none)
    (h2f : H2.failMsg = none) (h2a : H2.act = none) :
    ∃ s1 b1 s2 b2, EventBus.subscribe b e (.callable H1) = .ok (s1, b1) ∧
      EventBus.subscribe b1 e (.callable H2) = .ok (s2, b2) ∧
      EventBus.publish b2 e =
        (.ok ((alistGetD b.subscribers e []).length + 2),
         ((alistGetD b.subscribers e []).map (fun p => p.2.effs)).flatten
           ++ H1.effs ++ H2.effs,
         b2) := by
  rcases EventBus.subscribe_spec H1 hwf he with
    ⟨b1, hsub1, hnext1, hbkt1, _, _, _, hwf1⟩
  rcases EventBus.subscribe_spec H2 hwf1 he with
    ⟨b2, hsub2, hnext2, hbkt2, _, _, _, _⟩
  refine ⟨_, b1, _, b2, hsub1, hsub2, ?_⟩
  rw [hbkt1] at hbkt2
  have hL : alistGetD b2.subscribers e [] =
      alistGetD b.subscribers e [] ++
        [(freshId b.nextId, H1), (freshId b1.nextId, H2)] := by
    rw [hbkt2]
    simp
  have hget2 : alistGet b2.subscribers e = some (alistGetD b.subscribers e [] ++
      [(freshId b.nextId, H1), (freshId b1.nextId, H2)]) :=
    EventBus.alistGet_of_getD_ne_nil hL (by simp)
  have hpend : ∀ p ∈ alistGetD b.subscribers e [] ++
      [(freshId b.nextId, H1), (freshId b1.nextId, H2)],
      p.2.failMsg = none ∧ EventBus.ActAvoids e
        ((alistGetD b.subscribers e [] ++
          [(freshId b.nextId, H1), (freshId b1.nextId, H2)]).map Prod.fst) p.2.act := by
    intro p hp
    rcases List.mem_append.mp hp with hc | hc
    · rcases hbkt p hc with ⟨hf, ha⟩
      exact ⟨hf, by rw [ha]; exact trivial⟩
    · rcases List.mem_cons.mp hc with hc' | hc'
      · rw [hc']
        exact ⟨h1f, by rw [h1a]; exact trivial⟩
      · rcases List.mem_cons.mp hc' with hc'' | hc''
        · rw [hc'']
          exact ⟨h2f, by rw [h2a]; exact trivial⟩
        · simp at hc''
  have hacts : ∀ p ∈ alistGetD b.subscribers e [] ++
      [(freshId b.nextId, H1), (freshId b1.nextId, H2)], p.2.act = none := by
    intro p hp
    rcases List.mem_append.mp hp with hc | hc
    · exact (hbkt p hc).2
    · rcases List.mem_cons.mp hc with hc' | hc'
      · rw [hc']
        exact h1a
      · rcases List.mem_cons.mp hc' with hc'' | hc''
        · rw [hc'']
          exact h2a
        · simp at hc''
  have hdisp := EventBus.dispatchLoop_avoid
    (alistGetD b.subscribers e [] ++ [(freshId b.nextId, H1), (freshId b1.nextId, H2)])
    b2 [] hget2 hpend
  rw [EventBus.foldl_actApply_none hacts] at hdisp
  simp only [EventBus.publish, if_neg he, hL]
  rw [hdisp]
  simp

/-- Witness for C4 at a concrete input. -/
theorem C4_witness :
    EventBus.WF (BusState.empty SyncHandler) ∧
    ("order.created" : String) ≠ "" ∧
    (∀ p ∈ alistGetD (BusState.empty SyncHandler).subscribers "order.created" [],
      p.2.failMsg = none ∧ p.2.act = none) ∧
    (∃ s1 b1 s2 b2,
      EventBus.subscribe (BusState.empty SyncHandler) "order.created"
        (.callable ⟨[1], none, none⟩) = .ok (s1, b1) ∧
      EventBus.subscribe b1 "order.created" (.callable ⟨[2], none, none⟩) = .ok (s2, b2) ∧
      EventBus.publish b2 "order.created" =
        (.ok ((alistGetD (BusState.empty SyncHandler).subscribers "order.created" []).length + 2),
         ((alistGetD (BusState.empty SyncHandler).subscribers "order.created" []).map
            (fun p => p.2.effs)).flatten ++ [1] ++ [2],
         b2)) :=
  ⟨WF_empty SyncHandler, by decide, by simp [BusState.empty, alistGetD, alistGet],
   C4_sync_registration_order (BusState.empty SyncHandler) "order.created"
     ⟨[1], none, none⟩ ⟨[2], none, none⟩ (WF_empty SyncHandler) (by decide)
     (by simp [BusState.empty, alistGetD, alistGet]) rfl rfl rfl rfl⟩

/-! ## Claim C5: subscribe issues fresh identifiers and bumps counts by one -/

/-- C5: on a well-formed bus, `subscribe(e, h)` with a non-empty event name
and callable handler succeeds with an identifier distinct from every
identifier the bus previously issued (in particular from every identifier
still in the registry), increases `count_subscribers(e)` and the total count
by exactly one each, changes no other event's count, and a second subscribe
of the same handler on the same event yields a different identifier and a
second independent subscription.  The registry code is shared verbatim by
both bus variants (`H` ranges over both handler models). -/
theorem C5_subscribe_fresh_id_and_counts {H : Type} (b : BusState H) (e : String)
    (h : H) (hwf : EventBus.WF b) (he : e ≠ "") :
    ∃ s b', EventBus.subscribe b e (.callable h) = .ok (s, b') ∧
      (∀ k, k < b.nextId → s ≠ freshId k) ∧
      s ∉ EventBus.busIds b ∧
      EventBus.count_subscribers b' (some e) = EventBus.count_subscribers b (some e) + 1 ∧
      EventBus.count_subscribers b' none = EventBus.count_subscribers b none + 1 ∧
      (∀ e', e' ≠ e →
        EventBus.count_subscribers b' (some e') = EventBus.count_subscribers b (some e')) ∧
      ∃ s' b'', EventBus.subscribe b' e (.callable h) = .ok (s', b'') ∧ s' ≠ s ∧
        EventBus.count_subscribers b'' (some e) =
          EventBus.count_subscribers b (some e) + 2 := by
  rcases EventBus.subscribe_spec h hwf he with
    ⟨b', hsub, hnext, hbkt, hother, hcnt, hperm, hwf'⟩
  rcases EventBus.subscribe_spec h hwf' he with
    ⟨b'', hsub2, hnext2, hbkt2, _, _, _, _⟩
  refine ⟨freshId b.nextId, b', hsub, ?_, ?_, ?_, hcnt, ?_, freshId b'.nextId, b'', hsub2,
    ?_, ?_⟩
  · intro k hk hc
    have := freshId_injective hc.symm
    omega
  · intro hmem
    rcases hwf.2 _ hmem with ⟨k, hk, hkid⟩
    have := freshId_injective hkid
    omega
  · simp [EventBus.count_subscribers, hbkt]
  · intro e' hne
    simp [EventBus.count_subscribers, alistGetD, hother e' hne]
  · intro hc
    have := freshId_injective hc
    omega
  · rw [hbkt] at hbkt2
    simp [EventBus.count_subscribers, hbkt2]

/-- Witness for C5 at a concrete input. -/
theorem C5_witness :
    EventBus.WF busW ∧ ("order.created" : String) ≠ "" ∧
    (∃ s b', EventBus.subscribe busW "order.created" (.callable 9) = .ok (s, b') ∧
      (∀ k, k < busW.nextId → s ≠ freshId k) ∧
      s ∉ EventBus.busIds busW ∧
      EventBus.count_subscribers b' (some "order.created") =
        EventBus.count_subscribers busW (some "order.created") + 1 ∧
      EventBus.count_subscribers b' none = EventBus.count_subscribers busW none + 1 ∧
      (∀ e', e' ≠ "order.created" →
        EventBus.count_subscribers b' (some e') =
          EventBus.count_subscribers busW (some e')) ∧
      ∃ s' b'', EventBus.subscribe b' "order.created" (.callable 9) = .ok (s', b'') ∧
        s' ≠ s ∧
        EventBus.count_subscribers b'' (some "order.created") =
          EventBus.count_subscribers busW (some "order.created") + 2) := by
  have hwf : EventBus.WF busW := by
    constructor
    · simp [EventBus.busIds, EventBus.idsOf, busW]
    · intro id hid
      simp [EventBus.busIds, EventBus.idsOf, busW] at hid
      exact ⟨0, by simp [busW], hid.symm⟩
  exact ⟨hwf, by decide,
    C5_subscribe_fresh_id_and_counts busW "order.created" 9 hwf (by decide)⟩

/-! ## Claim C6: unsubscribe succeeds exactly once -/

/-- C6: on a well-formed bus, the first `unsubscribe(s)` for a stored
identifier returns true and removes exactly that subscription (its binding is
gone, every other identifier's binding is untouched, and the total count
drops by exactly one); a second call on the same identifier, and any call
with an identifier the bus does not hold, returns false as a normal result
and leaves the bus unchanged.  The registry code is shared verbatim by both
bus variants. -/
theorem C6_unsubscribe_true_exactly_once {H : Type} (b : BusState H) (s : String)
    (hwf : EventBus.WF b) :
    (s ∈ EventBus.busIds b →
      ∃ b', EventBus.unsubscribe b s = .ok (true, b') ∧
        EventBus.subLookup b' s = none ∧
        (∀ id, id ≠ s → EventBus.subLookup b' id = EventBus.subLookup b id) ∧
        EventBus.count_subscribers b' none + 1 = EventBus.count_subscribers b none ∧
        EventBus.unsubscribe b' s = .ok (false, b')) ∧
    (s ∉ EventBus.busIds b → s ≠ "" →
      EventBus.unsubscribe b s = .ok (false, b)) := by
  constructor
  · intro hmem
    have hs_ne : s ≠ "" := by
      rcases hwf.2 _ hmem with ⟨k, _, hkid⟩
      rw [← hkid]
      exact freshId_ne_empty k
    rcases EventBus.removeFirst_spec hwf.1 hmem with ⟨h1, h2, h3, h4⟩
    refine ⟨⟨(EventBus.removeFirst b.subscribers s).2, b.nextId⟩, ?_, h3, h4, ?_, ?_⟩
    · simp [EventBus.unsubscribe, hs_ne, h1]
    · rw [EventBus.count_none_eq_busIds_length, EventBus.count_none_eq_busIds_length]
      show (EventBus.idsOf (EventBus.removeFirst b.subscribers s).2).length + 1 =
        (EventBus.busIds b).length
      rw [h2]
      exact List.length_erase_add_one hmem
    · have hnot : s ∉ EventBus.idsOf (EventBus.removeFirst b.subscribers s).2 := by
        rw [h2]
        exact hwf.1.not_mem_erase
      have hrf := EventBus.removeFirst_not_found hnot
      simp [EventBus.unsubscribe, hs_ne, hrf]
  · intro hnmem hs_ne
    have hrf := EventBus.removeFirst_not_found hnmem
    simp [EventBus.unsubscribe, hs_ne, hrf]

/-- Witness for C6 at a concrete input. -/
theorem C6_witness :
    EventBus.WF busW ∧ freshId 0 ∈ EventBus.busIds busW ∧
    (∃ b', EventBus.unsubscribe busW (freshId 0) = .ok (true, b') ∧
      EventBus.subLookup b' (freshId 0) = none ∧
      (∀ id, id ≠ freshId 0 → EventBus.subLookup b' id = EventBus.subLookup busW id) ∧
      EventBus.count_subscribers b' none + 1 = EventBus.count_subscribers busW none ∧
      EventBus.unsubscribe b' (freshId 0) = .ok (false, b')) := by
  have hwf : EventBus.WF busW := by
    constructor
    · simp [EventBus.busIds, EventBus.idsOf, busW]
    · intro id hid
      simp [EventBus.busIds, EventBus.idsOf, busW] at hid
      exact ⟨0, by simp [busW], hid.symm⟩
  have hmem : freshId 0 ∈ EventBus.busIds busW := by
    simp [EventBus.busIds, EventBus.idsOf, busW]
  exact ⟨hwf, hmem, (C6_unsubscribe_true_exactly_once busW (freshId 0) hwf).1 hmem⟩

/-! ## Claim C7: an event key exists iff it has an active subscription -/

/-- Helper shared by the frame claims: the asynchronous publish never writes
to the registry. -/
theorem asyncPublish_bus_eq (b : BusState AHandler) (e : String) :
    (AsyncEventBus.publish b e).bus = b := by
  by_cases he : e = ""
  · simp [AsyncEventBus.publish, he]
  · simp only [AsyncEventBus.publish, if_neg he]
    split <;> rfl

/-- C7: the no-dangling-empty-entries invariant — an event name is a key of
the internal mapping iff it has at least one active subscription — is
preserved by subscribe, unsubscribe (which deletes a bucket it empties),
clear and publish in both variants, and under it key-presence coincides with
a positive subscriber count.  (`count_subscribers` itself returns a number
and by its type leaves the state untouched.) -/
theorem C7_entry_iff_active_subscription :
    (∀ (H : Type) (b : BusState H), EventBus.Tidy b →
      (∀ (e s : String) (h : H) (b' : BusState H),
        EventBus.subscribe b e (.callable h) = .ok (s, b') → EventBus.Tidy b') ∧
      (∀ (sid : String) (r : Bool) (b' : BusState H),
        EventBus.unsubscribe b sid = .ok (r, b') → EventBus.Tidy b') ∧
      EventBus.Tidy (EventBus.clear b) ∧
      (∀ e : String, (alistGet b.subscribers e).isSome ↔
        0 < EventBus.count_subscribers b (some e))) ∧
    (∀ (b : BusState SyncHandler) (e : String), EventBus.Tidy b →
      EventBus.Tidy (EventBus.publish b e).2.2) ∧
    (∀ (b : BusState AHandler) (e : String), EventBus.Tidy b →
      EventBus.Tidy (AsyncEventBus.publish b e).bus) := by
  refine ⟨?_, ?_, ?_⟩
  · intro H b ht
    refine ⟨?_, ?_, ?_, ?_⟩
    · intro e s h b' hs
      exact EventBus.subscribe_tidy ht hs
    · intro sid r b' hs
      exact EventBus.unsubscribe_tidy ht hs
    · intro p hp
      simp [EventBus.clear] at hp
    · intro e
      constructor
      · intro hsome
        rcases Option.isSome_iff_exists.mp hsome with ⟨hs, hget⟩
        have hne : hs ≠ [] := ht (e, hs) (alistGet_mem hget)
        simp only [EventBus.count_subscribers, alistGetD, hget, Option.getD_some]
        exact List.length_pos.mpr hne
      · intro hpos
        rcases hg : alistGet b.subscribers e with _ | v
        · simp [EventBus.count_subscribers, alistGetD, hg] at hpos
        · simp
  · intro b e ht
    by_cases he : e = ""
    · simpa [EventBus.publish, he] using ht
    · simp only [EventBus.publish, if_neg he]
      exact EventBus.dispatchLoop_tidy _ b [] ht
  · intro b e ht
    rw [asyncPublish_bus_eq b e]
    exact ht

/-- Witness for C7 at a concrete input. -/
theorem C7_witness :
    EventBus.Tidy busW ∧ EventBus.Tidy (EventBus.clear busW) ∧
    ((alistGet busW.subscribers "order.created").isSome ↔
      0 < EventBus.count_subscribers busW (some "order.created")) := by
  have ht : EventBus.Tidy busW := by
    intro p hp
    fin_cases hp
    simp
  exact ⟨ht, (C7_entry_iff_active_subscription.1 Nat busW ht).2.2.1,
    (C7_entry_iff_active_subscription.1 Nat busW ht).2.2.2 "order.created"⟩

/-! ## Claim C2: the sync publish does not snapshot its handler mapping -/

/-- Counterexample to C2 as stated: `EventBus.publish` takes no snapshot —
`handlers = self._subscribers.get(event, {})` aliases the live inner dict.
With one handler subscribed to `"order.created"` that itself subscribes
during the publish, the claim predicts a normal return of 1 having invoked
exactly the snapshot; the code instead raises
`RuntimeError("dictionary changed size during iteration")` at the next loop
boundary (the spec-faithful snapshot dispatcher `publishSnapshotSpec` does
return 1 on the same input), while the registry does keep the mid-publish
subscription. -/
theorem C2_counterexample :
    EventBus.subscribe (BusState.empty SyncHandler) "order.created" (.callable mutHandler) =
      .ok (freshId 0, busC2) ∧
    (EventBus.publish busC2 "order.created").1 =
      .error (.runtimeError "dictionary changed size during iteration") ∧
    (EventBus.publishSnapshotSpec busC2 "order.created").1 = .ok 1 ∧
    EventBus.count_subscribers (EventBus.publish busC2 "order.created").2.2
      (some "order.created") = 2 := by
  refine ⟨?_, ?_, ?_, ?_⟩ <;> rfl

/-- C2 (amended): `EventBus.publish` iterates the live handler mapping of the
event, not a copy.  When no handler of the publish touches the published
event's own bucket (none raises, and each handler's registry call, if any,
subscribes to a different event or unsubscribes an identifier outside the
bucket), the publish behaves as the snapshot semantics prescribes: it invokes
exactly the handlers registered at loop start, in registration order,
returns their count, and the handlers' registry calls take effect on bus
state only.  A handler that does change the published event's own bucket
instead causes the publish to raise RuntimeError, as the counterexample
shows. -/
theorem C2_amended_publish_live_mapping (b : BusState SyncHandler) (e : String)
    (bucket0 : List (String × SyncHandler)) (he : e ≠ "")
    (hget : alistGet b.subscribers e = some bucket0)
    (hpend : ∀ p ∈ bucket0, p.2.failMsg = none ∧
      EventBus.ActAvoids e (bucket0.map Prod.fst) p.2.act) :
    EventBus.publish b e =
      (.ok bucket0.length, (bucket0.map (fun p => p.2.effs)).flatten,
       bucket0.foldl (fun bb p => EventBus.actApply bb p.2) b) := by
  simp only [EventBus.publish, if_neg he, alistGetD, hget, Option.getD_some]
  rw [EventBus.dispatchLoop_avoid bucket0 b [] hget hpend]
  simp

/-- Witness for the amended C2 at a concrete input: the handler mutates a
different event, so the publish completes on the loop-start handlers and the
mutation lands in the registry. -/
theorem C2_amended_witness :
    ("order.created" : String) ≠ "" ∧
    alistGet busC2W.subscribers "order.created" =
      some [(freshId 0, ⟨[7], none, some (.subAct "user.login")⟩)] ∧
    EventBus.publish busC2W "order.created" =
      (.ok 1, [7],
       ([(freshId 0, (⟨[7], none, some (.subAct "user.login")⟩ : SyncHandler))]).foldl
         (fun bb p => EventBus.actApply bb p.2) busC2W) := by
  refine ⟨by decide, rfl, ?_⟩
  have h := C2_amended_publish_live_mapping busC2W "order.created"
    [(freshId 0, ⟨[7], none, some (.subAct "user.login")⟩)] (by decide) rfl
    (by
      intro p hp
      fin_cases hp
      exact ⟨rfl, by decide, by decide⟩)
  simpa using h

/-! ## Claim C1: the async publish does not wait for the cohort on failure -/

/-- Counterexample to C1 as stated: `AsyncEventBus.publish` awaits
`asyncio.gather(*tasks)` with the default `return_exceptions=False`, which
propagates the first child's exception as soon as that child finishes; it
does not wait for the rest of the cohort.  With a handler that raises at once
and a sibling with three await segments, the publish call fails while the
sibling has run only its first two segments (`logAtReturn = [1, 2]`); the
sibling is not cancelled and completes afterwards (`fullLog = [1, 2, 3]`).
Under the claim, the failure could surface only after every handler had
finished, i.e. `logAtReturn` would equal `fullLog`. -/
theorem C1_counterexample :
    (AsyncEventBus.publish busC1 "order.created").result =
      .error (.handlerError "boom") ∧
    (AsyncEventBus.publish busC1 "order.created").logAtReturn = [1, 2] ∧
    (AsyncEventBus.publish busC1 "order.created").fullLog = [1, 2, 3] ∧
    (AsyncEventBus.publish busC1 "order.created").logAtReturn ≠
      (AsyncEventBus.publish busC1 "order.created").fullLog := by
  refine ⟨rfl, rfl, rfl, ?_⟩
  intro hc
  rw [show (AsyncEventBus.publish busC1 "order.created").logAtReturn = [1, 2] from rfl,
    show (AsyncEventBus.publish busC1 "order.created").fullLog = [1, 2, 3] from rfl] at hc
  simp at hc

/-! ## List lemmas for the event-loop invariant -/

theorem getD_set_self {α : Type} {l : List α} {i : Nat} (h : i < l.length)
    (a d : α) : (l.set i a).getD i d = a := by
  induction l generalizing i with
  | nil => simp at h
  | cons x rest ih =>
    cases i with
    | zero => simp [List.set, List.getD]
    | succ j =>
      simp only [List.set, List.getD_cons_succ]
      exact ih (by simpa using h) 

theorem getD_set_ne {α : Type} (l : List α) {i j : Nat} (hij : i ≠ j)
    (a d : α) : (l.set i a).getD j d = l.getD j d := by
  induction l generalizing i j with
  | nil => simp [List.set]
  | cons x rest ih =>
    cases i with
    | zero =>
      cases j with
      | zero => exact absurd rfl hij
      | succ j' => simp [List.set, List.getD_cons_succ]
    | succ i' =>
      cases j with
      | zero => simp [List.set, List.getD_cons_zero]
      | succ j' =>
        simp only [List.set, List.getD_cons_succ]
        exact ih (fun hc => hij (by rw [hc]))

theorem getD_replicate_lt {α : Type} {n i : Nat} (h : i < n) (x d : α) :
    (List.replicate n x).getD i d = x := by
  induction n generalizing i with
  | zero => omega
  | succ m ih =>
    cases i with
    | zero => simp [List.replicate]
    | succ j =>
      simp only [List.replicate, List.getD_cons_succ]
      exact ih (by omega)

theorem getD_eq_nil_of_le {α : Type} {l : List (List α)} {i : Nat}
    (h : l.length ≤ i) : l.getD i [] = [] := by
  rw [List.getD_eq_getElem?_getD, List.getElem?_eq_none (by omega)]
  rfl

theorem emitsSum_set {l : List AHandler} {tid : Nat} (h : tid < l.length)
    (x : AHandler) :
    emitsSum (l.set tid x) + (↑(emitsA (l.getD tid [])) : Multiset Nat) =
      emitsSum l + (↑(emitsA x) : Multiset Nat) := by
  induction l generalizing tid with
  | nil => simp at h
  | cons y rest ih =>
    cases tid with
    | zero =>
      simp only [List.set, emitsSum, List.map_cons, List.sum_cons, List.getD_cons_zero]
      abel
    | succ j =>
      simp only [List.set, emitsSum, List.map_cons, List.sum_cons, List.getD_cons_succ]
      have := @ih j (by simpa using h)
      simp only [emitsSum] at this
      calc ((emitsA y : Multiset Nat) + ((rest.set j x).map
              (fun t => ((emitsA t : List Nat) : Multiset Nat))).sum) +
            (emitsA (rest.getD j []) : Multiset Nat)
          = (emitsA y : Multiset Nat) + (((rest.set j x).map
              (fun t => ((emitsA t : List Nat) : Multiset Nat))).sum +
            (emitsA (rest.getD j []) : Multiset Nat)) := by abel
        _ = (emitsA y : Multiset Nat) + ((rest.map
              (fun t => ((emitsA t : List Nat) : Multiset Nat))).sum +
            (emitsA x : Multiset Nat)) := by rw [this]
        _ = ((emitsA y : Multiset Nat) + (rest.map
              (fun t => ((emitsA t : List Nat) : Multiset Nat))).sum) +
            (emitsA x : Multiset Nat) := by abel

theorem emitsSum_eq_zero {l : List AHandler} (h : ∀ t ∈ l, t = []) :
    emitsSum l = 0 := by
  induction l with
  | nil => simp [emitsSum]
  | cons x rest ih =>
    have hx : x = [] := h x (List.mem_cons_self _ _)
    have hrest : emitsSum rest = 0 := ih (fun t ht => h t (List.mem_cons_of_mem _ ht))
    simp only [emitsSum, List.map_cons, List.sum_cons, hx]
    simp only [emitsSum] at hrest
    rw [hrest]
    simp [emitsA]

theorem range_map_getD_sum {α : Type} (l : List α) (f : α → Nat) (d : α) :
    (((List.range l.length).map (fun i => f (l.getD i d)))).sum = (l.map f).sum := by
  induction l with
  | nil => simp
  | cons x rest ih =>
    rw [show (x :: rest).length = rest.length + 1 from rfl, List.range_succ_eq_map]
    simp only [List.map_cons, List.sum_cons, List.getD_cons_zero, List.map_map,
      Function.comp_def, List.getD_cons_succ]
    rw [ih]

theorem mem_of_getD_lt {α : Type} {l : List α} {i : Nat} (h : i < l.length) (d : α) :
    l.getD i d ∈ l := by
  rw [List.getD_eq_getElem?_getD, List.getElem?_eq_getElem h]
  simp [List.getElem_mem]

theorem exists_index_of_mem {α : Type} {l : List α} {a : α} (h : a ∈ l) :
    ∃ i, i < l.length ∧ l.getD i a = a := by
  rcases List.getElem_of_mem h with ⟨i, hi, hval⟩
  refine ⟨i, hi, ?_⟩
  rw [List.getD_eq_getElem?_getD, List.getElem?_eq_getElem hi, hval]
  rfl

theorem countP_flip_succ {α : Type} {l : List α} {a : α}
    (hnd : l.Nodup) (ha : a ∈ l) (p q : α → Bool)
    (hpa : p a = true) (hqa : q a = false)
    (hpq : ∀ b ∈ l, b ≠ a → p b = q b) :
    l.countP p = l.countP q + 1 := by
  induction l with
  | nil => simp at ha
  | cons x rest ih =>
    rcases List.mem_cons.mp ha with hc | hc
    · subst hc
      have hnot : a ∉ rest := (List.nodup_cons.mp hnd).1
      have heq : rest.countP p = rest.countP q := by
        refine List.countP_congr ?_
        intro b hb
        have hne : b ≠ a := fun hba => hnot (hba ▸ hb)
        rw [hpq b (List.mem_cons_of_mem _ hb) hne]
      rw [List.countP_cons, List.countP_cons, hpa, hqa, heq]
      simp
    · by_cases hx : x = a
      · subst hx
        have hnot : x ∉ rest := (List.nodup_cons.mp hnd).1
        exact absurd hc hnot
      · have hrec := ih (List.nodup_cons.mp hnd).2 hc
          (fun b hb hne => hpq b (List.mem_cons_of_mem _ hb) hne)
        rw [List.countP_cons, List.countP_cons, hrec,
          hpq x (List.mem_cons_self _ _) hx]
        omega

theorem countP_congr_eq {α : Type} {l : List α} {p q : α → Bool}
    (h : ∀ a ∈ l, p a = q a) : l.countP p = l.countP q := by
  induction l with
  | nil => rfl
  | cons x rest ih =>
    rw [List.countP_cons, List.countP_cons, h x (List.mem_cons_self _ _),
      ih (fun a ha => h a (List.mem_cons_of_mem _ ha))]

/-! ## The event-loop invariant holds initially -/

theorem cb_step_injective : Function.Injective Cb.step := by
  intro a b h
  injection h

theorem Inv_init (T : List AHandler) (hne : T ≠ []) : InvAsync T (initLoop T) := by
  refine ⟨rfl, List.length_replicate _ _, ?_, ?_, ?_, ?_, ?_, ?_, ?_, ?_⟩
  · intro tid htid
    left
    refine ⟨?_, ?_, ?_, rfl, rfl⟩
    · simp only [initLoop]
      exact getD_replicate_lt htid none none
    · simp only [initLoop]
      rw [List.count_map_of_injective _ _ cb_step_injective]
      exact List.count_eq_one_of_mem (List.nodup_range _) (List.mem_range.mpr htid)
    · simp only [initLoop]
      refine List.count_eq_zero.mpr ?_
      intro hc
      rcases List.mem_map.mp hc with ⟨a, _, heq⟩
      exact Cb.noConfusion heq
  · simp [initLoop]
  · intro m hm
    simp [initLoop] at hm
  · intro hm
    simp [initLoop] at hm
  · intro tid m htid hdone
    simp only [initLoop] at hdone
    rw [getD_replicate_lt htid none none] at hdone
    exact Option.noConfusion hdone
  · simp only [initLoop, okSettledCount]
    refine (List.countP_eq_zero.mpr ?_).symm
    intro tid htid
    have h : tid < T.length := List.mem_range.mp htid
    simp [getD_replicate_lt h none none]
  · intro h
    have : T.length = 0 := h.symm ▸ rfl
    exact absurd (List.length_eq_zero.mp (by simpa [initLoop] using this)) hne
  · intro c hc
    simp only [initLoop] at hc
    rcases List.mem_map.mp hc with ⟨a, ha, heq⟩
    rw [← heq]
    exact List.mem_range.mp ha

/-! ## Preservation of the event-loop invariant -/

theorem taskInv_of_counts (T : List AHandler) (st st' : LoopState) (tid : Nat)
    (hdone : st'.done.getD tid none = st.done.getD tid none)
    (htasks : st'.tasks.getD tid [] = st.tasks.getD tid [])
    (hstep : st'.queue.count (Cb.step tid) = st.queue.count (Cb.step tid))
    (hgcb : st'.queue.count (Cb.gcb tid) = st.queue.count (Cb.gcb tid))
    (h : taskInv T st tid) : taskInv T st' tid := by
  rcases h with ⟨h1, h2, h3, h4, h5⟩ | ⟨r, h1, h2, h3, h4, h5, h6⟩
  · left
    rw [hdone, htasks, hstep, hgcb]
    exact ⟨h1, h2, h3, h4, h5⟩
  · right
    refine ⟨r, ?_, ?_, ?_, ?_, h5, h6⟩
    · rw [hdone]; exact h1
    · rw [hstep]; exact h2
    · rw [hgcb]; exact h3
    · rw [htasks]; exact h4

theorem okSettled_of_counts (st st' : LoopState) (n : Nat)
    (hdone : ∀ tid, st'.done.getD tid none = st.done.getD tid none)
    (hgcb : ∀ tid, st'.queue.count (Cb.gcb tid) = st.queue.count (Cb.gcb tid)) :
    okSettledCount st' n = okSettledCount st n := by
  refine countP_congr_eq ?_
  intro tid _
  rw [hdone, hgcb]

theorem count_cons_self (c : Cb) (l : List Cb) : (c :: l).count c = l.count c + 1 := by
  simp [List.count_cons]

theorem count_cons_ne {c x : Cb} (h : x ≠ c) (l : List Cb) :
    (c :: l).count x = l.count x := by
  simp [List.count_cons, h]

theorem count_append_single_self (l : List Cb) (c : Cb) :
    (l ++ [c]).count c = l.count c + 1 := by
  simp [List.count_append]

theorem count_append_single_ne {c x : Cb} (h : x ≠ c) (l : List Cb) :
    (l ++ [c]).count x = l.count x := by
  simp [List.count_append, List.count_cons, h]

theorem preserve_wake {T : List AHandler} {st : LoopState} {rest : List Cb}
    (hInv : InvAsync T st) (hq : st.queue = Cb.wake :: rest) :
    InvAsync T (processCb { st with queue := rest } Cb.wake) ∧
    queueWeight (processCb { st with queue := rest } Cb.wake) < queueWeight st := by
  obtain ⟨hTl, hDl, hTask, hCons, hOuterErr, hOuterOk, hErrSettled, hNf, hNfOuter,
    hValid⟩ := hInv
  have hstep : ∀ tid, rest.count (Cb.step tid) = st.queue.count (Cb.step tid) := by
    intro tid
    rw [hq, count_cons_ne (by simp)]
  have hgcb : ∀ tid, rest.count (Cb.gcb tid) = st.queue.count (Cb.gcb tid) := by
    intro tid
    rw [hq, count_cons_ne (by simp)]
  constructor
  · refine ⟨hTl, hDl, ?_, hCons, hOuterErr, hOuterOk, ?_, ?_, hNfOuter, ?_⟩
    · intro tid htid
      exact taskInv_of_counts T st _ tid rfl rfl (hstep tid) (hgcb tid) (hTask tid htid)
    · intro tid m htid hdone hcnt
      exact hErrSettled tid m htid hdone (by rw [← hgcb tid]; exact hcnt)
    · rw [hNf]
      exact (okSettled_of_counts st (processCb { st with queue := rest } Cb.wake)
        T.length (fun tid => rfl) hgcb).symm
    · intro c hc
      exact hValid c (by rw [hq]; exact List.mem_cons_of_mem _ hc)
  · simp only [queueWeight, processCb, hq, List.map_cons, List.sum_cons, cbWeight]
    omega

theorem preserve_gcb {T : List AHandler} {st : LoopState} {tid : Nat} {rest : List Cb}
    (hInv : InvAsync T st) (hq : st.queue = Cb.gcb tid :: rest) :
    InvAsync T (processCb { st with queue := rest } (Cb.gcb tid)) ∧
    queueWeight (processCb { st with queue := rest } (Cb.gcb tid)) < queueWeight st := by
  obtain ⟨hTl, hDl, hTask, hCons, hOuterErr, hOuterOk, hErrSettled, hNf, hNfOuter,
    hValid⟩ := hInv
  have htid : tid < T.length :=
    hValid (Cb.gcb tid) (by rw [hq]; exact List.mem_cons_self _ _)
  have hgcb_self : st.queue.count (Cb.gcb tid) = rest.count (Cb.gcb tid) + 1 := by
    rw [hq, count_cons_self]
  have hrest_step : ∀ tid', rest.count (Cb.step tid') = st.queue.count (Cb.step tid') := by
    intro tid'
    rw [hq, count_cons_ne (by simp)]
  have hrest_gcb_ne : ∀ tid', tid' ≠ tid →
      rest.count (Cb.gcb tid') = st.queue.count (Cb.gcb tid') := by
    intro tid' hne
    rw [hq, count_cons_ne (by simp [hne])]
  rcases hTask tid htid with ⟨_, _, h3, _, _⟩ | ⟨r, hdone, hstepc, hgcbc, htasks0, hokr, herrr⟩
  · exfalso
    omega
  have hr0 : rest.count (Cb.gcb tid) = 0 := by omega
  have hs0 : rest.count (Cb.step tid) = 0 := by
    have := hrest_step tid
    omega
  have hvalid_rest : ∀ c ∈ rest, cbValid T.length c := by
    intro c hc
    exact hValid c (by rw [hq]; exact List.mem_cons_of_mem _ hc)
  have htask_new : ∀ (st' : LoopState), st'.done = st.done → st'.tasks = st.tasks →
      (∀ tid', st'.queue.count (Cb.step tid') = rest.count (Cb.step tid')) →
      (∀ tid', st'.queue.count (Cb.gcb tid') = rest.count (Cb.gcb tid')) →
      ∀ tid', tid' < T.length → taskInv T st' tid' := by
    intro st' hd ht hcs hcg tid' htid'
    by_cases hne : tid' = tid
    · subst hne
      right
      refine ⟨r, ?_, ?_, ?_, ?_, hokr, herrr⟩
      · rw [hd]
        exact hdone
      · rw [hcs tid']
        exact hs0
      · rw [hcg tid', hr0]
        omega
      · rw [ht]
        exact htasks0
    · refine taskInv_of_counts T st st' tid' (by rw [hd]) (by rw [ht]) ?_ ?_
        (hTask tid' htid')
      · rw [hcs tid', hrest_step tid']
      · rw [hcg tid', hrest_gcb_ne tid' hne]
  rcases r with _ | m
  · -- the task finished successfully: gather counts one more completion
    have hsettled_new : ∀ (st' : LoopState), st'.done = st.done →
        st'.queue.count (Cb.gcb tid) = 0 →
        (∀ tid', tid' ≠ tid → st'.queue.count (Cb.gcb tid') = rest.count (Cb.gcb tid')) →
        okSettledCount st' T.length = st.nfinished + 1 := by
      intro st' hd h0 hcg
      have hkey : okSettledCount st' T.length = okSettledCount st T.length + 1 := by
        refine countP_flip_succ (List.nodup_range _) (List.mem_range.mpr htid) _ _ ?_ ?_ ?_
        · simp only [hd, decide_eq_true_eq]
          exact ⟨hdone, h0⟩
        · simp [hgcb_self]
        · intro b _ hb
          rw [hd]
          have : st'.queue.count (Cb.gcb b) = st.queue.count (Cb.gcb b) := by
            rw [hcg b hb, hrest_gcb_ne b hb]
          rw [this]
      rw [hkey, hNf]
    have hred0 : processCb { st with queue := rest } (Cb.gcb tid) =
        (if st.nfinished + 1 = st.tasks.length && st.outer.isNone then
          { st with queue := rest ++ [Cb.wake], nfinished := st.nfinished + 1,
                    outer := some none }
        else { st with queue := rest, nfinished := st.nfinished + 1 }) := by
      simp only [processCb, hdone]
    by_cases hcond : st.nfinished + 1 = st.tasks.length && st.outer.isNone
    · have hred : processCb { st with queue := rest } (Cb.gcb tid) =
          { st with queue := rest ++ [Cb.wake], nfinished := st.nfinished + 1,
                    outer := some none } := by
        rw [hred0, if_pos hcond]
      rw [hred]
      have hcg : ∀ tid', (rest ++ [Cb.wake]).count (Cb.gcb tid') =
          rest.count (Cb.gcb tid') := fun tid' => count_append_single_ne (by simp) rest
      have hcs : ∀ tid', (rest ++ [Cb.wake]).count (Cb.step tid') =
          rest.count (Cb.step tid') := fun tid' => count_append_single_ne (by simp) rest
      constructor
      · refine ⟨hTl, hDl, ?_, hCons, ?_, ?_, ?_, ?_, ?_, ?_⟩
        · exact htask_new _ rfl rfl hcs hcg
        · intro m' hm'
          exact absurd hm' (by simp)
        · intro _
          simp only [Bool.and_eq_true, decide_eq_true_eq] at hcond
          rw [← hTl]
          exact hcond.1
        · intro _ _ _ _ _
          simp
        · exact (hsettled_new
            { st with queue := rest ++ [Cb.wake], nfinished := st.nfinished + 1,
                      outer := some none } rfl
            (by show (rest ++ [Cb.wake]).count (Cb.gcb tid) = 0
                rw [hcg tid]; exact hr0)
            (fun tid' h => hcg tid')).symm
        · intro _
          simp
        · intro c hc
          rcases List.mem_append.mp hc with h | h
          · exact hvalid_rest c h
          · simp only [List.mem_singleton] at h
            rw [h]
            exact trivial
      · simp only [queueWeight, hq, List.map_cons, List.sum_cons, List.map_append,
          List.sum_append, cbWeight]
        simp only [List.map_nil, List.sum_nil]
        omega
    · have hred : processCb { st with queue := rest } (Cb.gcb tid) =
          { st with queue := rest, nfinished := st.nfinished + 1 } := by
        rw [hred0, if_neg hcond]
      rw [hred]
      constructor
      · refine ⟨hTl, hDl, ?_, hCons, hOuterErr, ?_, ?_, ?_, ?_, hvalid_rest⟩
        · exact htask_new _ rfl rfl (fun tid' => rfl) (fun tid' => rfl)
        · intro hsome
          exfalso
          have hnfn : st.nfinished = T.length := hOuterOk hsome
          have hall : ∀ a ∈ List.range T.length,
              (fun a => decide (st.done.getD a none = some none ∧
                st.queue.count (Cb.gcb a) = 0)) a := by
            refine List.countP_eq_length.mp ?_
            rw [← okSettledCount, ← hNf, hnfn, List.length_range]
          have := hall tid (List.mem_range.mpr htid)
          simp only [decide_eq_true_eq] at this
          omega
        · intro tid' m' htid' hdone' hcnt'
          by_cases hne : tid' = tid
          · subst hne
            rw [hdone'] at hdone
            exact Option.noConfusion (Option.some.inj hdone)
          · refine hErrSettled tid' m' htid' hdone' ?_
            rw [← hrest_gcb_ne tid' hne]
            exact hcnt'
        · exact (hsettled_new
            { st with queue := rest, nfinished := st.nfinished + 1 } rfl hr0
            (fun tid' h => rfl)).symm
        · intro hnfn
          simp only [Bool.and_eq_true, decide_eq_true_eq, not_and] at hcond
          rcases Option.eq_none_or_eq_some st.outer with ho | ⟨v, ho⟩
          · exfalso
            have := hcond (by rw [hTl]; exact hnfn)
            simp [ho] at this
          · simp [ho]
      · simp only [queueWeight, hq, List.map_cons, List.sum_cons, cbWeight]
        omega
  · -- the task raised: the first such completion fails the gather future
    have hsettled_same : ∀ (st' : LoopState), st'.done = st.done →
        (∀ tid', tid' ≠ tid → st'.queue.count (Cb.gcb tid') = rest.count (Cb.gcb tid')) →
        okSettledCount st' T.length = okSettledCount st T.length := by
      intro st' hd hcg
      refine countP_congr_eq ?_
      intro b _
      by_cases hb : b = tid
      · subst hb
        rw [hd]
        have hdone2 : st.done[b]?.getD none = some (some m) := by
          rw [← List.getD_eq_getElem?_getD]
          exact hdone
        simp [hdone2]
      · rw [hd, hcg b hb, hrest_gcb_ne b hb]
    rcases Option.eq_none_or_eq_some st.outer with ho | ⟨v, ho⟩
    · have hred : processCb { st with queue := rest } (Cb.gcb tid) =
          { st with queue := rest ++ [Cb.wake], outer := some (some m) } := by
        simp only [processCb, hdone, ho]
        rfl
      rw [hred]
      have hcg : ∀ tid', (rest ++ [Cb.wake]).count (Cb.gcb tid') =
          rest.count (Cb.gcb tid') := fun tid' => count_append_single_ne (by simp) rest
      have hcs : ∀ tid', (rest ++ [Cb.wake]).count (Cb.step tid') =
          rest.count (Cb.step tid') := fun tid' => count_append_single_ne (by simp) rest
      constructor
      · refine ⟨hTl, hDl, ?_, hCons, ?_, ?_, ?_, ?_, ?_, ?_⟩
        · exact htask_new _ rfl rfl hcs hcg
        · intro m' hm'
          have hmm : m = m' := by simpa using hm'
          exact ⟨tid, htid, by rw [← hmm]; exact hdone⟩
        · intro hm'
          exact absurd hm' (by simp)
        · intro _ _ _ _ _
          simp
        · rw [hNf]
          exact (hsettled_same
            { st with queue := rest ++ [Cb.wake], outer := some (some m) } rfl
            (fun tid' h => hcg tid')).symm
        · intro _
          simp
        · intro c hc
          rcases List.mem_append.mp hc with h | h
          · exact hvalid_rest c h
          · simp only [List.mem_singleton] at h
            rw [h]
            exact trivial
      · simp only [queueWeight, hq, List.map_cons, List.sum_cons, List.map_append,
          List.sum_append, cbWeight]
        simp only [List.map_nil, List.sum_nil]
        omega
    · have hred : processCb { st with queue := rest } (Cb.gcb tid) =
          { st with queue := rest } := by
        simp only [processCb, hdone, ho]
        rfl
      rw [hred]
      constructor
      · refine ⟨hTl, hDl, ?_, hCons, hOuterErr, hOuterOk, ?_, ?_, hNfOuter, hvalid_rest⟩
        · exact htask_new _ rfl rfl (fun tid' => rfl) (fun tid' => rfl)
        · intro tid' m' htid' hdone' hcnt'
          simp [ho]
        · rw [hNf]
          exact (hsettled_same { st with queue := rest } rfl (fun tid' h => rfl)).symm
      · simp only [queueWeight, hq, List.map_cons, List.sum_cons, cbWeight]
        omega

theorem preserve_step {T : List AHandler} {st : LoopState} {tid : Nat} {rest : List Cb}
    (hInv : InvAsync T st) (hq : st.queue = Cb.step tid :: rest) :
    InvAsync T (processCb { st with queue := rest } (Cb.step tid)) ∧
    queueWeight (processCb { st with queue := rest } (Cb.step tid)) < queueWeight st := by
  obtain ⟨hTl, hDl, hTask, hCons, hOuterErr, hOuterOk, hErrSettled, hNf, hNfOuter,
    hValid⟩ := hInv
  have htid : tid < T.length :=
    hValid (Cb.step tid) (by rw [hq]; exact List.mem_cons_self _ _)
  have hstep_self : st.queue.count (Cb.step tid) = rest.count (Cb.step tid) + 1 := by
    rw [hq, count_cons_self]
  have hrest_gcb : ∀ tid', rest.count (Cb.gcb tid') = st.queue.count (Cb.gcb tid') := by
    intro tid'
    rw [hq, count_cons_ne (by simp)]
  have hrest_step_ne : ∀ tid', tid' ≠ tid →
      rest.count (Cb.step tid') = st.queue.count (Cb.step tid') := by
    intro tid' hne
    rw [hq, count_cons_ne (by simp [hne])]
  rcases hTask tid htid with ⟨hdone0, hstepc, hgcbc, hff, hhf⟩ | ⟨r, _, h2, _, _, _, _⟩
  swap
  · exfalso
    omega
  have hs0 : rest.count (Cb.step tid) = 0 := by omega
  have hg0 : rest.count (Cb.gcb tid) = 0 := by
    have := hrest_gcb tid
    omega
  have hlt_done : tid < st.done.length := by omega
  have hlt_tasks : tid < st.tasks.length := by omega
  have hvalid_rest : ∀ c ∈ rest, cbValid T.length c := by
    intro c hc
    exact hValid c (by rw [hq]; exact List.mem_cons_of_mem _ hc)
  -- transfer of the per-task phases to the successor state
  have htask_other : ∀ (st' : LoopState),
      (∀ tid', tid' ≠ tid → st'.done.getD tid' none = st.done.getD tid' none) →
      (∀ tid', tid' ≠ tid → st'.tasks.getD tid' [] = st.tasks.getD tid' []) →
      (∀ tid', tid' ≠ tid → st'.queue.count (Cb.step tid') = rest.count (Cb.step tid')) →
      (∀ tid', tid' ≠ tid → st'.queue.count (Cb.gcb tid') = rest.count (Cb.gcb tid')) →
      ∀ tid', tid' < T.length → tid' ≠ tid → taskInv T st' tid' := by
    intro st' hd ht hcs hcg tid' h hne
    refine taskInv_of_counts T st st' tid' (hd tid' hne) (ht tid' hne) ?_ ?_
      (hTask tid' h)
    · rw [hcs tid' hne, hrest_step_ne tid' hne]
    · rw [hcg tid' hne, hrest_gcb tid']
  -- transfer of gather's settled-count when task `tid` finishes in this step
  have hsettled_done : ∀ (st' : LoopState) (v : Option String),
      st'.done.getD tid none = some v →
      (v = none → st'.queue.count (Cb.gcb tid) ≠ 0) →
      (∀ b, b ≠ tid → st'.done.getD b none = st.done.getD b none) →
      (∀ b, b ≠ tid → st'.queue.count (Cb.gcb b) = st.queue.count (Cb.gcb b)) →
      okSettledCount st' T.length = okSettledCount st T.length := by
    intro st' v hdv hnz hd hcnt
    refine countP_congr_eq ?_
    intro b _
    by_cases hb : b = tid
    · subst hb
      refine decide_eq_decide.mpr (iff_of_false ?_ ?_)
      · rintro ⟨hcd, hcc⟩
        rw [hdv] at hcd
        exact hnz (Option.some.inj hcd) hcc
      · rintro ⟨hcd, _⟩
        rw [hdone0] at hcd
        exact Option.noConfusion hcd
    · rw [hd b hb, hcnt b hb]
  -- transfer of gather's error-settled property when `tid` finishes here
  have herr_settled_new : ∀ (st' : LoopState) (v : Option String),
      st'.outer = st.outer →
      st'.done.getD tid none = some v →
      st'.queue.count (Cb.gcb tid) = 1 →
      (∀ b, b ≠ tid → st'.done.getD b none = st.done.getD b none) →
      (∀ b, b ≠ tid → st'.queue.count (Cb.gcb b) = st.queue.count (Cb.gcb b)) →
      ∀ t'' m', t'' < T.length → st'.done.getD t'' none = some (some m') →
        st'.queue.count (Cb.gcb t'') = 0 → st'.outer.isSome := by
    intro st' v ho hdv hc1 hd hcnt t'' m' h'' hd'' hc''
    by_cases hne : t'' = tid
    · subst hne
      rw [hc''] at hc1
      exact Nat.noConfusion hc1
    · rw [ho]
      refine hErrSettled t'' m' h'' ?_ ?_
      · rw [← hd t'' hne]
        exact hd''
      · rw [← hcnt t'' hne]
        exact hc''
  rcases hts : st.tasks.getD tid [] with _ | ⟨s, tl⟩
  · -- the coroutine returns at once
    have hred : processCb { st with queue := rest } (Cb.step tid) =
        { st with queue := rest ++ [Cb.gcb tid],
                  done := st.done.set tid (some none) } := by
      simp only [processCb, hts]
    rw [hred]
    have hd_self : (st.done.set tid (some none)).getD tid none = some none :=
      getD_set_self hlt_done _ _
    have hd_ne : ∀ b, b ≠ tid →
        (st.done.set tid (some none)).getD b none = st.done.getD b none :=
      fun b hb => getD_set_ne _ (fun hc => hb hc.symm) _ _
    have hq_step : ∀ b, (rest ++ [Cb.gcb tid]).count (Cb.step b) = rest.count (Cb.step b) :=
      fun b => count_append_single_ne (by simp) rest
    have hq_gcb_ne : ∀ b, b ≠ tid →
        (rest ++ [Cb.gcb tid]).count (Cb.gcb b) = st.queue.count (Cb.gcb b) :=
      fun b hb => by rw [count_append_single_ne (by simp [hb]) rest, hrest_gcb]
    have hq_gcb_self : (rest ++ [Cb.gcb tid]).count (Cb.gcb tid) = 1 := by
      rw [count_append_single_self, hg0]
    constructor
    · refine ⟨hTl, by simp [List.length_set, hDl], ?_, hCons, ?_, hOuterOk, ?_, ?_,
        hNfOuter, ?_⟩
      · intro tid' h
        by_cases hne : tid' = tid
        · subst hne
          right
          refine ⟨none, hd_self, ?_, ?_, hts, ?_, ?_⟩
          · rw [hq_step tid', hs0]
          · rw [hq_gcb_self]
          · intro _
            rw [← hhf, hts]
            rfl
          · intro m hm
            exact Option.noConfusion hm
        · exact htask_other
            { st with queue := rest ++ [Cb.gcb tid], done := st.done.set tid (some none) }
            hd_ne (fun _ _ => rfl) (fun b hb => hq_step b)
            (fun b hb => by rw [hq_gcb_ne b hb, hrest_gcb]) tid' h hne
      · intro m hm
        rcases hOuterErr m hm with ⟨t'', ht'', hd''⟩
        have hne : t'' ≠ tid := by
          intro hc
          subst hc
          rw [hdone0] at hd''
          exact Option.noConfusion hd''
        exact ⟨t'', ht'', by rw [hd_ne t'' hne]; exact hd''⟩
      · exact herr_settled_new
          { st with queue := rest ++ [Cb.gcb tid], done := st.done.set tid (some none) }
          none rfl hd_self hq_gcb_self hd_ne hq_gcb_ne
      · rw [hNf]
        exact (hsettled_done
          { st with queue := rest ++ [Cb.gcb tid], done := st.done.set tid (some none) }
          none hd_self (fun _ => by rw [hq_gcb_self]; omega) hd_ne hq_gcb_ne).symm
      · intro c hc
        rcases List.mem_append.mp hc with h | h
        · exact hvalid_rest c h
        · simp only [List.mem_singleton] at h
          rw [h]
          exact htid
    · simp only [queueWeight, hq, List.map_cons, List.sum_cons, List.map_append,
        List.sum_append, cbWeight, hts]
      simp only [List.map_nil, List.sum_nil, List.length_nil]
      omega
  rcases s with n | m
  · -- the coroutine runs one effect segment
    by_cases htl : tl.isEmpty
    · -- ... which is the last one: the task finishes
      have htl' : tl = [] := by simpa [List.isEmpty_iff] using htl
      subst htl'
      have hred : processCb { st with queue := rest } (Cb.step tid) =
          { st with queue := rest ++ [Cb.gcb tid], log := st.log ++ [n],
                    tasks := st.tasks.set tid [],
                    done := st.done.set tid (some none) } := by
        simp only [processCb, hts]
        rfl
      rw [hred]
      have hd_self : (st.done.set tid (some none)).getD tid none = some none :=
        getD_set_self hlt_done _ _
      have hd_ne : ∀ b, b ≠ tid →
          (st.done.set tid (some none)).getD b none = st.done.getD b none :=
        fun b hb => getD_set_ne _ (fun hc => hb hc.symm) _ _
      have ht_ne : ∀ b, b ≠ tid →
          (st.tasks.set tid []).getD b [] = st.tasks.getD b [] :=
        fun b hb => getD_set_ne _ (fun hc => hb hc.symm) _ _
      have hq_step : ∀ b, (rest ++ [Cb.gcb tid]).count (Cb.step b) =
          rest.count (Cb.step b) := fun b => count_append_single_ne (by simp) rest
      have hq_gcb_ne : ∀ b, b ≠ tid →
          (rest ++ [Cb.gcb tid]).count (Cb.gcb b) = st.queue.count (Cb.gcb b) :=
        fun b hb => by rw [count_append_single_ne (by simp [hb]) rest, hrest_gcb]
      have hq_gcb_self : (rest ++ [Cb.gcb tid]).count (Cb.gcb tid) = 1 := by
        rw [count_append_single_self, hg0]
      constructor
      · refine ⟨by simp [List.length_set, hTl], by simp [List.length_set, hDl], ?_, ?_,
          ?_, hOuterOk, ?_, ?_, hNfOuter, ?_⟩
        · intro tid' h
          by_cases hne : tid' = tid
          · subst hne
            right
            refine ⟨none, hd_self, ?_, ?_, getD_set_self hlt_tasks _ _, ?_, ?_⟩
            · rw [hq_step tid', hs0]
            · rw [hq_gcb_self]
            · intro _
              rw [← hhf, hts]
              rfl
            · intro m hm
              exact Option.noConfusion hm
          · exact htask_other
              { st with queue := rest ++ [Cb.gcb tid], log := st.log ++ [n],
                        tasks := st.tasks.set tid [],
                        done := st.done.set tid (some none) }
              hd_ne ht_ne (fun b hb => hq_step b)
              (fun b hb => by rw [hq_gcb_ne b hb, hrest_gcb]) tid' h hne
        · show (↑(st.log ++ [n]) : Multiset Nat) + emitsSum (st.tasks.set tid []) =
            emitsSum T
          have hset := emitsSum_set hlt_tasks ([] : AHandler)
          rw [hts] at hset
          simp only [emitsA] at hset
          have h4 : emitsSum (st.tasks.set tid []) + ({n} : Multiset Nat) =
              emitsSum st.tasks := by
            simpa using hset
          rw [← hCons, ← h4, ← Multiset.coe_add]
          simp only [Multiset.coe_singleton]
          abel
        · intro m hm
          rcases hOuterErr m hm with ⟨t'', ht'', hd''⟩
          have hne : t'' ≠ tid := by
            intro hc
            subst hc
            rw [hdone0] at hd''
            exact Option.noConfusion hd''
          exact ⟨t'', ht'', by rw [hd_ne t'' hne]; exact hd''⟩
        · exact herr_settled_new
            { st with queue := rest ++ [Cb.gcb tid], log := st.log ++ [n],
                      tasks := st.tasks.set tid [],
                      done := st.done.set tid (some none) }
            none rfl hd_self hq_gcb_self hd_ne hq_gcb_ne
        · rw [hNf]
          exact (hsettled_done
            { st with queue := rest ++ [Cb.gcb tid], log := st.log ++ [n],
                      tasks := st.tasks.set tid [],
                      done := st.done.set tid (some none) }
            none hd_self (fun _ => by rw [hq_gcb_self]; omega) hd_ne hq_gcb_ne).symm
        · intro c hc
          rcases List.mem_append.mp hc with h | h
          · exact hvalid_rest c h
          · simp only [List.mem_singleton] at h
            rw [h]
            exact htid
      · have hmap : List.map (cbWeight (st.tasks.set tid [])) rest =
            List.map (cbWeight st.tasks) rest := by
          refine List.map_congr_left ?_
          intro c hc
          rcases c with t' | t' | _
          · have hne : t' ≠ tid := by
              intro hcx
              subst hcx
              have := List.count_pos_iff.mpr hc
              omega
            simp only [cbWeight]
            rw [getD_set_ne _ (fun hcx => hne hcx.symm)]
          · rfl
          · rfl
        simp only [queueWeight, hq, List.map_cons, List.sum_cons, List.map_append,
          List.sum_append, hmap, cbWeight, hts]
        simp only [List.map_nil, List.sum_nil, List.length_cons, List.length_nil]
        omega
    · -- ... and more segments remain: the task is rescheduled
      have hred : processCb { st with queue := rest } (Cb.step tid) =
          { st with queue := rest ++ [Cb.step tid], log := st.log ++ [n],
                    tasks := st.tasks.set tid tl } := by
        simp only [processCb, hts, htl]
        rfl
      rw [hred]
      have ht_ne : ∀ b, b ≠ tid →
          (st.tasks.set tid tl).getD b [] = st.tasks.getD b [] :=
        fun b hb => getD_set_ne _ (fun hc => hb hc.symm) _ _
      have hq_gcb : ∀ b, (rest ++ [Cb.step tid]).count (Cb.gcb b) =
          st.queue.count (Cb.gcb b) :=
        fun b => by rw [count_append_single_ne (by simp) rest, hrest_gcb]
      have hq_step_ne : ∀ b, b ≠ tid →
          (rest ++ [Cb.step tid]).count (Cb.step b) = rest.count (Cb.step b) :=
        fun b hb => count_append_single_ne (by simp [hb]) rest
      have hq_step_self : (rest ++ [Cb.step tid]).count (Cb.step tid) = 1 := by
        rw [count_append_single_self, hs0]
      constructor
      · refine ⟨by simp [List.length_set, hTl], hDl, ?_, ?_, hOuterErr, hOuterOk, ?_, ?_,
          hNfOuter, ?_⟩
        · intro tid' h
          by_cases hne : tid' = tid
          · subst hne
            left
            refine ⟨hdone0, ?_, ?_, ?_, ?_⟩
            · rw [hq_step_self]
            · rw [hq_gcb tid']
              omega
            · rw [getD_set_self hlt_tasks _ _, ← hff, hts]
              rfl
            · rw [getD_set_self hlt_tasks _ _, ← hhf, hts]
              rfl
          · exact htask_other
              { st with queue := rest ++ [Cb.step tid], log := st.log ++ [n],
                        tasks := st.tasks.set tid tl }
              (fun _ _ => rfl) ht_ne hq_step_ne
              (fun b hb => by rw [hq_gcb b, ← hrest_gcb b]) tid' h hne
        · show (↑(st.log ++ [n]) : Multiset Nat) + emitsSum (st.tasks.set tid tl) =
            emitsSum T
          have hset := emitsSum_set hlt_tasks tl
          rw [hts] at hset
          simp only [emitsA] at hset
          have h2 : (↑(n :: emitsA tl : List Nat) : Multiset Nat) =
              ({n} : Multiset Nat) + (↑(emitsA tl) : Multiset Nat) := by
            rw [← Multiset.cons_coe, ← Multiset.singleton_add]
          rw [h2] at hset
          have h3 : (emitsSum (st.tasks.set tid tl) + ({n} : Multiset Nat)) +
              (↑(emitsA tl) : Multiset Nat) = emitsSum st.tasks +
              (↑(emitsA tl) : Multiset Nat) := by
            rw [add_assoc]
            exact hset
          have h4 := add_right_cancel h3
          rw [← hCons, ← h4, ← Multiset.coe_add]
          simp only [Multiset.coe_singleton]
          abel
        · intro t'' m' h'' hd'' hc''
          have hne : t'' ≠ tid := by
            intro hc
            subst hc
            rw [hdone0] at hd''
            exact Option.noConfusion hd''
          refine hErrSettled t'' m' h'' hd'' ?_
          rw [← hq_gcb t'']
          exact hc''
        · rw [hNf]
          refine (okSettled_of_counts st
            { st with queue := rest ++ [Cb.step tid], log := st.log ++ [n],
                      tasks := st.tasks.set tid tl }
            T.length (fun b => rfl) hq_gcb).symm
        · intro c hc
          rcases List.mem_append.mp hc with h | h
          · exact hvalid_rest c h
          · simp only [List.mem_singleton] at h
            rw [h]
            exact htid
      · have hmap : List.map (cbWeight (st.tasks.set tid tl)) rest =
            List.map (cbWeight st.tasks) rest := by
          refine List.map_congr_left ?_
          intro c hc
          rcases c with t' | t' | _
          · have hne : t' ≠ tid := by
              intro hcx
              subst hcx
              have := List.count_pos_iff.mpr hc
              omega
            simp only [cbWeight]
            rw [getD_set_ne _ (fun hcx => hne hcx.symm)]
          · rfl
          · rfl
        simp only [queueWeight, hq, List.map_cons, List.sum_cons, List.map_append,
          List.sum_append, hmap, cbWeight, hts]
        simp only [List.map_nil, List.sum_nil, List.length_cons,
          getD_set_self hlt_tasks tl []]
        omega
  · -- the coroutine raises: the task finishes with an exception
    have hred : processCb { st with queue := rest } (Cb.step tid) =
        { st with queue := rest ++ [Cb.gcb tid], tasks := st.tasks.set tid [],
                  done := st.done.set tid (some (some m)) } := by
      simp only [processCb, hts]
    rw [hred]
    have hd_self : (st.done.set tid (some (some m))).getD tid none = some (some m) :=
      getD_set_self hlt_done _ _
    have hd_ne : ∀ b, b ≠ tid →
        (st.done.set tid (some (some m))).getD b none = st.done.getD b none :=
      fun b hb => getD_set_ne _ (fun hc => hb hc.symm) _ _
    have ht_ne : ∀ b, b ≠ tid →
        (st.tasks.set tid []).getD b [] = st.tasks.getD b [] :=
      fun b hb => getD_set_ne _ (fun hc => hb hc.symm) _ _
    have hq_step : ∀ b, (rest ++ [Cb.gcb tid]).count (Cb.step b) =
        rest.count (Cb.step b) := fun b => count_append_single_ne (by simp) rest
    have hq_gcb_ne : ∀ b, b ≠ tid →
        (rest ++ [Cb.gcb tid]).count (Cb.gcb b) = st.queue.count (Cb.gcb b) :=
      fun b hb => by rw [count_append_single_ne (by simp [hb]) rest, hrest_gcb]
    have hq_gcb_self : (rest ++ [Cb.gcb tid]).count (Cb.gcb tid) = 1 := by
      rw [count_append_single_self, hg0]
    constructor
    · refine ⟨by simp [List.length_set, hTl], by simp [List.length_set, hDl], ?_, ?_,
        ?_, hOuterOk, ?_, ?_, hNfOuter, ?_⟩
      · intro tid' h
        by_cases hne : tid' = tid
        · subst hne
          right
          refine ⟨some m, hd_self, ?_, ?_, getD_set_self hlt_tasks _ _, ?_, ?_⟩
          · rw [hq_step tid', hs0]
          · rw [hq_gcb_self]
          · intro hm
            exact Option.noConfusion hm
          · intro m' hm'
            rw [← hff, hts, ← Option.some.inj hm']
            rfl
        · exact htask_other
            { st with queue := rest ++ [Cb.gcb tid], tasks := st.tasks.set tid [],
                      done := st.done.set tid (some (some m)) }
            hd_ne ht_ne (fun b hb => hq_step b)
            (fun b hb => by rw [hq_gcb_ne b hb, hrest_gcb]) tid' h hne
      · show (↑st.log : Multiset Nat) + emitsSum (st.tasks.set tid []) = emitsSum T
        have hset := emitsSum_set hlt_tasks ([] : AHandler)
        rw [hts] at hset
        simp only [emitsA] at hset
        have h4 : emitsSum (st.tasks.set tid []) = emitsSum st.tasks := by
          simpa using hset
        rw [h4]
        exact hCons
      · intro m' hm'
        rcases hOuterErr m' hm' with ⟨t'', ht'', hd''⟩
        have hne : t'' ≠ tid := by
          intro hc
          subst hc
          rw [hdone0] at hd''
          exact Option.noConfusion hd''
        exact ⟨t'', ht'', by rw [hd_ne t'' hne]; exact hd''⟩
      · exact herr_settled_new
          { st with queue := rest ++ [Cb.gcb tid], tasks := st.tasks.set tid [],
                    done := st.done.set tid (some (some m)) }
          (some m) rfl hd_self hq_gcb_self hd_ne hq_gcb_ne
      · rw [hNf]
        exact (hsettled_done
          { st with queue := rest ++ [Cb.gcb tid], tasks := st.tasks.set tid [],
                    done := st.done.set tid (some (some m)) }
          (some m) hd_self (fun hc => Option.noConfusion hc) hd_ne hq_gcb_ne).symm
      · intro c hc
        rcases List.mem_append.mp hc with h | h
        · exact hvalid_rest c h
        · simp only [List.mem_singleton] at h
          rw [h]
          exact htid
    · have hmap : List.map (cbWeight (st.tasks.set tid [])) rest =
          List.map (cbWeight st.tasks) rest := by
        refine List.map_congr_left ?_
        intro c hc
        rcases c with t' | t' | _
        · have hne : t' ≠ tid := by
            intro hcx
            subst hcx
            have := List.count_pos_iff.mpr hc
            omega
          simp only [cbWeight]
          rw [getD_set_ne _ (fun hcx => hne hcx.symm)]
        · rfl
        · rfl
      simp only [queueWeight, hq, List.map_cons, List.sum_cons, List.map_append,
        List.sum_append, hmap, cbWeight, hts]
      simp only [List.map_nil, List.sum_nil, List.length_cons]
      omega
theorem getD_congr_default {α : Type} {l : List α} {i : Nat} (h : i < l.length)
    (d d' : α) : l.getD i d = l.getD i d' := by
  rw [List.getD_eq_getElem?_getD, List.getD_eq_getElem?_getD,
    List.getElem?_eq_getElem h]
  rfl
theorem cbWeight_pos (tasks : List AHandler) (c : Cb) : 1 ≤ cbWeight tasks c := by
  cases c with
  | step tid => simp only [cbWeight]; omega
  | gcb tid => simp only [cbWeight]; omega
  | wake => simp only [cbWeight]; omega
theorem queueWeight_pos {st : LoopState} {c : Cb} {rest : List Cb}
    (hq : st.queue = c :: rest) : 1 ≤ queueWeight st := by
  have h := cbWeight_pos st.tasks c
  simp only [queueWeight, hq, List.map_cons, List.sum_cons]
  omega
theorem okSettled_full {st : LoopState} {n : Nat} (h : okSettledCount st n = n)
    {tid : Nat} (htid : tid < n) :
    st.done.getD tid none = some none ∧ st.queue.count (Cb.gcb tid) = 0 := by
  have h1 : (List.range n).countP
      (fun tid => decide (st.done.getD tid none = some none ∧
        st.queue.count (Cb.gcb tid) = 0)) = (List.range n).length := by
    rw [List.length_range]
    exact h
  have h2 := List.countP_eq_length.mp h1 tid (List.mem_range.mpr htid)
  simpa using h2
theorem okSettled_all {st : LoopState} {n : Nat}
    (h : ∀ tid, tid < n → st.done.getD tid none = some none ∧
      st.queue.count (Cb.gcb tid) = 0) :
    okSettledCount st n = n := by
  have h1 : (List.range n).countP
      (fun tid => decide (st.done.getD tid none = some none ∧
        st.queue.count (Cb.gcb tid) = 0)) = (List.range n).length := by
    refine List.countP_eq_length.mpr ?_
    intro tid htid
    simpa using h tid (List.mem_range.mp htid)
  show (List.range n).countP _ = n
  rw [h1, List.length_range]
theorem loopRun_spec : ∀ (fuel : Nat) (T : List AHandler) (st : LoopState),
    InvAsync T st → queueWeight st ≤ fuel →
    InvAsync T (loopRun fuel st) ∧ (loopRun fuel st).queue = [] := by
  intro fuel
  induction fuel with
  | zero =>
    intro T st hInv hw
    rcases hqq : st.queue with _ | ⟨c, rest⟩
    · simp only [loopRun]
      exact ⟨hInv, hqq⟩
    · have := queueWeight_pos hqq
      omega
  | succ fuel ih =>
    intro T st hInv hw
    rcases hqq : st.queue with _ | ⟨c, rest⟩
    · simp only [loopRun, hqq]
      exact ⟨hInv, trivial⟩
    · simp only [loopRun, hqq]
      cases c with
      | step tid =>
        have h := preserve_step hInv hqq
        exact ih T _ h.1 (by omega)
      | gcb tid =>
        have h := preserve_gcb hInv hqq
        exact ih T _ h.1 (by omega)
      | wake =>
        have h := preserve_wake hInv hqq
        exact ih T _ h.1 (by omega)
theorem initLoop_weight (T : List AHandler) :
    queueWeight (initLoop T) ≤ AsyncEventBus.loopFuel T := by
  have h := range_map_getD_sum T (fun t => t.length + 3) []
  simp only [queueWeight, initLoop, AsyncEventBus.loopFuel, List.map_map]
  have he : (cbWeight T ∘ Cb.step) = fun i => (T.getD i []).length + 3 := rfl
  rw [he, h]
  omega
theorem hasFailA_of_firstFailA {t : AHandler} {m : String}
    (h : firstFailA t = some m) : hasFailA t = true := by
  induction t with
  | nil => simp [firstFailA] at h
  | cons s rest ih =>
    cases s with
    | eff n =>
      simp only [firstFailA] at h
      simp only [hasFailA]
      exact ih h
    | fail m' => simp [hasFailA]
theorem loop_final (T : List AHandler) (hne : T ≠ []) :
    (((loopRun (AsyncEventBus.loopFuel T) (initLoop T)).log : Multiset Nat) =
      emitsSum T) ∧
    ((∀ t ∈ T, hasFailA t = false) →
      (loopRun (AsyncEventBus.loopFuel T) (initLoop T)).outer = some none) ∧
    ((∃ t ∈ T, hasFailA t = true) →
      ∃ m, (loopRun (AsyncEventBus.loopFuel T) (initLoop T)).outer = some (some m) ∧
        ∃ t ∈ T, firstFailA t = some m) := by
  obtain ⟨hInv, hq⟩ :=
    loopRun_spec (AsyncEventBus.loopFuel T) T (initLoop T) (Inv_init T hne)
      (initLoop_weight T)
  obtain ⟨hTl, hDl, hTask, hCons, hOuterErr, hOuterOk, hErrSettled, hNf, hNfOuter,
    hValid⟩ := hInv
  have hsettled : ∀ tid, tid < T.length →
      ∃ r, (loopRun (AsyncEventBus.loopFuel T) (initLoop T)).done.getD tid none =
          some r ∧
        (loopRun (AsyncEventBus.loopFuel T) (initLoop T)).tasks.getD tid [] = [] ∧
        (r = none → hasFailA (T.getD tid []) = false) ∧
        (∀ m, r = some m → firstFailA (T.getD tid []) = some m) := by
    intro tid htid
    rcases hTask tid htid with ⟨_, hc, _, _, _⟩ | ⟨r, h1, _, _, h4, h5, h6⟩
    · rw [hq] at hc
      simp at hc
    · exact ⟨r, h1, h4, h5, h6⟩
  have htasks_nil : ∀ t ∈ (loopRun (AsyncEventBus.loopFuel T) (initLoop T)).tasks,
      t = [] := by
    intro t ht
    rcases List.getElem_of_mem ht with ⟨i, hi, hval⟩
    have hlen : i < T.length := by omega
    rcases hsettled i hlen with ⟨r, _, h3, _, _⟩
    have hgd : (loopRun (AsyncEventBus.loopFuel T) (initLoop T)).tasks.getD i [] =
        t := by
      rw [List.getD_eq_getElem?_getD, List.getElem?_eq_getElem hi, hval]
      rfl
    exact hgd.symm.trans h3
  have hlog : ((loopRun (AsyncEventBus.loopFuel T) (initLoop T)).log :
      Multiset Nat) = emitsSum T := by
    rw [← hCons, emitsSum_eq_zero htasks_nil]
    simp
  have houter : (loopRun (AsyncEventBus.loopFuel T) (initLoop T)).outer.isSome := by
    by_cases hfail : ∃ tid, tid < T.length ∧ ∃ m,
        (loopRun (AsyncEventBus.loopFuel T) (initLoop T)).done.getD tid none =
          some (some m)
    · rcases hfail with ⟨tid, htid, m, hd⟩
      exact hErrSettled tid m htid hd (by rw [hq]; rfl)
    · push_neg at hfail
      have hok : ∀ tid, tid < T.length →
          (loopRun (AsyncEventBus.loopFuel T) (initLoop T)).done.getD tid none =
              some none ∧
          ((loopRun (AsyncEventBus.loopFuel T) (initLoop T)).queue.count
            (Cb.gcb tid)) = 0 := by
        intro tid htid
        rcases hsettled tid htid with ⟨r, h1, _, _, _⟩
        cases r with
        | none => exact ⟨h1, by rw [hq]; rfl⟩
        | some m => exact absurd h1 (hfail tid htid m)
      apply hNfOuter
      rw [hNf, okSettled_all hok]
  refine ⟨hlog, ?_, ?_⟩
  · intro hnf
    rcases ho : (loopRun (AsyncEventBus.loopFuel T) (initLoop T)).outer with _ | r
    · rw [ho] at houter
      simp at houter
    · cases r with
      | none => rfl
      | some m =>
        rcases hOuterErr m ho with ⟨tid, htid, hd⟩
        rcases hsettled tid htid with ⟨r', h1, _, _, h6⟩
        have hrm : r' = some m := by
          rw [h1] at hd
          exact Option.some.inj hd
        have hff := h6 m hrm
        have hmem : T.getD tid [] ∈ T := mem_of_getD_lt htid []
        have := hnf _ hmem
        rw [hasFailA_of_firstFailA hff] at this
        exact absurd this (by simp)
  · rintro ⟨t, ht, htf⟩
    rcases exists_index_of_mem ht with ⟨i, hi, hgd⟩
    have hgd' : T.getD i [] = t := by
      rw [getD_congr_default hi [] t, hgd]
    rcases hsettled i hi with ⟨r, h1, _, h5, h6⟩
    cases r with
    | none =>
      rw [hgd', htf] at h5
      exact absurd (h5 rfl) (by simp)
    | some m =>
      rcases ho : (loopRun (AsyncEventBus.loopFuel T) (initLoop T)).outer
        with _ | r'
      · rw [ho] at houter
        simp at houter
      · cases r' with
        | some m' =>
          rcases hOuterErr m' ho with ⟨tid, htid, hd⟩
          rcases hsettled tid htid with ⟨r'', hb1, _, _, hb6⟩
          have hrm : r'' = some m' := by
            rw [hb1] at hd
            exact Option.some.inj hd
          exact ⟨m', rfl, T.getD tid [], mem_of_getD_lt htid [], hb6 m' hrm⟩
        | none =>
          have hnfin := hOuterOk ho
          rw [hNf] at hnfin
          have hp := okSettled_full hnfin hi
          rw [h1] at hp
          exact absurd hp.1 (by simp)
theorem asyncPublish_pos_eq (b : BusState AHandler) {e : String} (he : e ≠ "")
    (hne : (alistGetD b.subscribers e []).map Prod.snd ≠ []) :
    AsyncEventBus.publish b e =
      { result :=
          match (loopRun (AsyncEventBus.loopFuel
              ((alistGetD b.subscribers e []).map Prod.snd))
              (initLoop ((alistGetD b.subscribers e []).map Prod.snd))).outer with
          | some (some m) => .error (.handlerError m)
          | some none => .ok ((alistGetD b.subscribers e []).map Prod.snd).length
          | none => .error (.runtimeError "gather did not complete")
        logAtReturn := (loopRun (AsyncEventBus.loopFuel
            ((alistGetD b.subscribers e []).map Prod.snd))
            (initLoop ((alistGetD b.subscribers e []).map Prod.snd))).retLog.getD []
        fullLog := (loopRun (AsyncEventBus.loopFuel
            ((alistGetD b.subscribers e []).map Prod.snd))
            (initLoop ((alistGetD b.subscribers e []).map Prod.snd))).log
        bus := b } := by
  simp only [AsyncEventBus.publish, if_neg he]
  rw [if_pos (List.length_pos.mpr hne)]

/-- C1 (amended): on an event with a non-empty handler snapshot, no handler
of the snapshot is ever abandoned — the full effect log of the publish cohort
is exactly the multiset of effects all snapshot handlers emit when each runs
to its own completion — and no failure is silently swallowed: if every
handler succeeds the publish returns the snapshot size, and if any handler
raises the publish raises a `handlerError` carrying the exception message of
one of the failing handlers.  (The original claim's further assertion that
the failure surfaces only after every handler has finished is refuted by
`C1_counterexample`: `asyncio.gather` re-raises the first child exception as
soon as that child settles, while the remaining children keep running in the
background.) -/
theorem C1_amended_cohort_completion (b : BusState AHandler) (e : String)
    (he : e ≠ "") (hne : (alistGetD b.subscribers e []).map Prod.snd ≠ []) :
    ((AsyncEventBus.publish b e).fullLog : Multiset Nat) =
      emitsSum ((alistGetD b.subscribers e []).map Prod.snd) ∧
    ((∀ t ∈ (alistGetD b.subscribers e []).map Prod.snd, hasFailA t = false) →
      (AsyncEventBus.publish b e).result =
        .ok ((alistGetD b.subscribers e []).map Prod.snd).length) ∧
    ((∃ t ∈ (alistGetD b.subscribers e []).map Prod.snd, hasFailA t = true) →
      ∃ m, (AsyncEventBus.publish b e).result = .error (.handlerError m) ∧
        ∃ t ∈ (alistGetD b.subscribers e []).map Prod.snd,
          firstFailA t = some m) := by
  obtain ⟨hlog, hok, hfail⟩ :=
    loop_final ((alistGetD b.subscribers e []).map Prod.snd) hne
  rw [asyncPublish_pos_eq b he hne]
  refine ⟨hlog, ?_, ?_⟩
  · intro h
    simp only [hok h]
  · intro h
    rcases hfail h with ⟨m, hm, t, ht, hft⟩
    refine ⟨m, ?_, t, ht, hft⟩
    simp only [hm]
theorem C1_amended_witness :
    ("order.created" ≠ "" ∧
      (alistGetD busC1.subscribers "order.created" []).map Prod.snd ≠ []) ∧
    (((AsyncEventBus.publish busC1 "order.created").fullLog : Multiset Nat) =
      emitsSum ((alistGetD busC1.subscribers "order.created" []).map Prod.snd) ∧
    ((∀ t ∈ (alistGetD busC1.subscribers "order.created" []).map Prod.snd,
        hasFailA t = false) →
      (AsyncEventBus.publish busC1 "order.created").result =
        .ok ((alistGetD busC1.subscribers "order.created" []).map
          Prod.snd).length) ∧
    ((∃ t ∈ (alistGetD busC1.subscribers "order.created" []).map Prod.snd,
        hasFailA t = true) →
      ∃ m, (AsyncEventBus.publish busC1 "order.created").result =
          .error (.handlerError m) ∧
        ∃ t ∈ (alistGetD busC1.subscribers "order.created" []).map Prod.snd,
          firstFailA t = some m)) :=
  ⟨⟨by decide, by decide⟩,
    C1_amended_cohort_completion busC1 "order.created" (by decide) (by decide)⟩
